import Mathlib

/-!
Verification development for the shielded-payment detection engine
(`src/crypto/sapling.ts`, the `ZcashLightClient` scan engine and the
zingo watch loop).  TypeScript `bigint` arithmetic is embedded as `Int`
(JS `%` is truncated remainder, `Int.tmod`; JS `/` on bigints is
truncated division, `Int.tdiv`).  Byte buffers are embedded as
`List Nat` with every entry below 256.  Loops are embedded with explicit
fuel chosen large enough to cover every run of the source loop.
-/

namespace Zeek

/-! ## Modular arithmetic helpers (`mod`, `modPow`, `modInverse`) -/

/-- `mod(n, p)` from `src/crypto/sapling.ts`: truncated remainder (the
source binds it to `result`), shifted into `[0, p)` when negative. -/
def jjmod (n p : Int) : Int :=
  if Int.tmod n p ≥ 0 then Int.tmod n p else Int.tmod n p + p

theorem tmod_gt_neg {a b : Int} (hb : 0 < b) : -b < Int.tmod a b := by
  obtain ⟨n, rfl⟩ : ∃ n : Nat, b = (n : Int) :=
    ⟨b.toNat, (Int.toNat_of_nonneg (by omega)).symm⟩
  have hn : 0 < n := by exact_mod_cast hb
  cases a with
  | ofNat m =>
    have h : Int.tmod (Int.ofNat m) (n : Int) = ((m % n : Nat) : Int) := rfl
    rw [h]
    have h2 : (0 : Int) ≤ ((m % n : Nat) : Int) := Int.ofNat_nonneg _
    omega
  | negSucc m =>
    have h : Int.tmod (Int.negSucc m) (n : Int) = -(((m + 1) % n : Nat) : Int) := rfl
    rw [h]
    have h2 : (m + 1) % n < n := Nat.mod_lt _ hn
    omega

theorem tmod_modeq (a b : Int) : Int.ModEq b (Int.tmod a b) a := by
  show Int.tmod a b % b = a % b
  conv_rhs => rw [← Int.tmod_add_tdiv a b]
  rw [Int.add_mul_emod_self_left]

theorem jjmod_nonneg {n p : Int} (hp : 0 < p) : 0 ≤ jjmod n p := by
  unfold jjmod
  have := tmod_gt_neg (a := n) hp
  split <;> omega

theorem jjmod_lt {n p : Int} (hp : 0 < p) : jjmod n p < p := by
  unfold jjmod
  have := Int.tmod_lt_of_pos n hp
  split <;> omega

theorem jjmod_modeq {n p : Int} : Int.ModEq p (jjmod n p) n := by
  unfold jjmod
  split
  · exact tmod_modeq n p
  · have h : (Int.tmod n p + p) % p = Int.tmod n p % p := by simp
    exact h.trans (tmod_modeq n p)

theorem jjmod_eq_emod {n p : Int} (hp : 0 < p) : jjmod n p = n % p := by
  have h1 := jjmod_nonneg (n := n) hp
  have h2 := jjmod_lt (n := n) hp
  have h3 : jjmod n p % p = n % p := jjmod_modeq
  rw [← h3, Int.emod_eq_of_lt h1 h2]

/-- Loop body of `modPow` from `src/crypto/sapling.ts`, with fuel.  The
source loop halves `exp` each iteration, so `exp.natAbs + 1` fuel always
covers it. -/
def modPowGo : Nat → Int → Int → Int → Int → Int
  | 0, result, _, _, _ => result
  | fuel + 1, result, base, exp, m =>
    if exp > 0 then
      modPowGo fuel
        (if Int.tmod exp 2 = 1 then Int.tmod (result * base) m else result)
        (Int.tmod (base * base) m) (Int.tdiv exp 2) m
    else result

/-- `modPow(base, exp, mod)` from `src/crypto/sapling.ts`. -/
def modPow (base exp m : Int) : Int :=
  modPowGo (exp.natAbs + 1) 1 (Int.tmod base m) exp m

theorem modPowGo_modeq (m : Int) :
    ∀ (fuel : Nat) (result base exp : Int), 0 ≤ exp → exp.natAbs < fuel →
      Int.ModEq m (modPowGo fuel result base exp m) (result * base ^ exp.toNat) := by
  intro fuel
  induction fuel with
  | zero => intro _ _ _ _ h; omega
  | succ fuel ih =>
    intro result base exp he hfuel
    by_cases hpos : exp > 0
    · simp only [modPowGo, if_pos hpos]
      have htd : Int.tdiv exp 2 = exp / 2 := Int.tdiv_eq_ediv he (by omega)
      have htm : Int.tmod exp 2 = exp % 2 := Int.tmod_eq_emod he (by omega)
      rw [htd, htm]
      have hlt : (exp / 2).natAbs < fuel := by omega
      have hhalf : 0 ≤ exp / 2 := by omega
      have hb2 : Int.ModEq m (Int.tmod (base * base) m) (base * base) := tmod_modeq _ _
      by_cases hodd : exp % 2 = 1
      · rw [if_pos hodd]
        have h1 := ih (Int.tmod (result * base) m) (Int.tmod (base * base) m)
          (exp / 2) hhalf hlt
        have h2 : Int.ModEq m
            (Int.tmod (result * base) m * Int.tmod (base * base) m ^ (exp / 2).toNat)
            ((result * base) * (base * base) ^ (exp / 2).toNat) :=
          (tmod_modeq _ _).mul (hb2.pow _)
        have h3 : (result * base) * (base * base) ^ (exp / 2).toNat
            = result * base ^ exp.toNat := by
          have hk : exp.toNat = 2 * (exp / 2).toNat + 1 := by omega
          rw [hk, pow_succ, pow_mul]
          ring
        exact h1.trans (h3 ▸ h2)
      · rw [if_neg hodd]
        have h1 := ih result (Int.tmod (base * base) m) (exp / 2) hhalf hlt
        have h2 : Int.ModEq m
            (result * Int.tmod (base * base) m ^ (exp / 2).toNat)
            (result * (base * base) ^ (exp / 2).toNat) :=
          Int.ModEq.mul_left result (hb2.pow _)
        have h3 : result * (base * base) ^ (exp / 2).toNat
            = result * base ^ exp.toNat := by
          have hk : exp.toNat = 2 * (exp / 2).toNat := by omega
          rw [hk, pow_mul]
          ring
        exact h1.trans (h3 ▸ h2)
    · have h0 : exp = 0 := by omega
      subst h0
      simp [modPowGo]

theorem modPow_modeq {b e m : Int} (he : 0 ≤ e) :
    Int.ModEq m (modPow b e m) (b ^ e.toNat) := by
  unfold modPow
  have h1 := modPowGo_modeq m (e.natAbs + 1) 1 (Int.tmod b m) e he (by omega)
  have h2 : Int.ModEq m (1 * Int.tmod b m ^ e.toNat) (b ^ e.toNat) := by
    simpa using ((tmod_modeq b m).pow e.toNat)
  exact h1.trans h2

theorem modPowGo_range (m : Int) (hm : 1 < m) :
    ∀ (fuel : Nat) (result base exp : Int), 0 ≤ result → result < m → 0 ≤ base →
      0 ≤ modPowGo fuel result base exp m ∧ modPowGo fuel result base exp m < m := by
  intro fuel
  induction fuel with
  | zero => intro result _ _ h1 h2 _; exact ⟨h1, h2⟩
  | succ fuel ih =>
    intro result base exp hr hrm hb
    by_cases hpos : exp > 0
    · simp only [modPowGo, if_pos hpos]
      have hbase2 : 0 ≤ Int.tmod (base * base) m := Int.tmod_nonneg m (by positivity)
      by_cases hodd : Int.tmod exp 2 = 1
      · rw [if_pos hodd]
        exact ih _ _ _ (Int.tmod_nonneg m (by positivity))
          (Int.tmod_lt_of_pos _ (by omega)) hbase2
      · rw [if_neg hodd]
        exact ih _ _ _ hr hrm hbase2
    · simp only [modPowGo, if_neg hpos]
      exact ⟨hr, hrm⟩

theorem modPow_range {b e m : Int} (hm : 1 < m) (hb : 0 ≤ b) :
    0 ≤ modPow b e m ∧ modPow b e m < m := by
  unfold modPow
  exact modPowGo_range m hm _ 1 (Int.tmod b m) e (by omega) (by omega)
    (Int.tmod_nonneg m hb)

/-- Loop of `modInverse` from `src/crypto/sapling.ts` (extended Euclid on
`[old_r, r]` with Bézout coefficients `[old_s, s]`), with fuel.  JS bigint
division truncates, hence `Int.tdiv`. -/
def egcdGo : Nat → Int → Int → Int → Int → Int
  | 0, _, _, old_s, _ => old_s
  | fuel + 1, old_r, r, old_s, s =>
    if r = 0 then old_s
    else
      egcdGo fuel r (old_r - Int.tdiv old_r r * r) s (old_s - Int.tdiv old_r r * s)

/-- `modInverse(a, p)` from `src/crypto/sapling.ts`.  The source loop runs
until `r = 0`; with the call pattern `0 ≤ a < p` the second loop variable
strictly decreases, so `p.natAbs + 1` fuel always covers it. -/
def modInverse (a p : Int) : Int :=
  jjmod (egcdGo (p.natAbs + 1) a p 1 0) p

theorem egcdGo_spec (P : Nat) (a : Int) :
    ∀ (fuel : Nat) (old_r r old_s s : Int), 0 ≤ old_r → 0 ≤ r → r.natAbs < fuel →
      Int.ModEq P (old_s * a) old_r → Int.ModEq P (s * a) r →
      Int.ModEq P (egcdGo fuel old_r r old_s s * a) (Int.gcd old_r r) := by
  intro fuel
  induction fuel with
  | zero => intro _ _ _ _ _ _ h; omega
  | succ fuel ih =>
    intro old_r r old_s s hor hr hfuel h1 h2
    by_cases hr0 : r = 0
    · subst hr0
      have hstep : egcdGo (fuel + 1) old_r 0 old_s s = old_s := by simp [egcdGo]
      rw [hstep]
      have hg : ((Int.gcd old_r 0 : Nat) : Int) = old_r := by
        rw [Int.gcd_zero_right]
        omega
      rw [hg]
      exact h1
    · have hrpos : 0 < r := by omega
      simp only [egcdGo, if_neg hr0]
      have htd : Int.tdiv old_r r = old_r / r := Int.tdiv_eq_ediv hor (by omega)
      have hres : old_r - Int.tdiv old_r r * r = old_r % r := by
        rw [htd, Int.emod_def]
        ring
      have hmod0 : 0 ≤ old_r % r := Int.emod_nonneg old_r (by omega)
      have hmodlt : old_r % r < r := Int.emod_lt_of_pos old_r hrpos
      have hfuel' : (old_r - Int.tdiv old_r r * r).natAbs < fuel := by
        rw [hres]
        omega
      have h2' : Int.ModEq P ((old_s - Int.tdiv old_r r * s) * a)
          (old_r - Int.tdiv old_r r * r) := by
        have hmul : Int.ModEq P (Int.tdiv old_r r * (s * a)) (Int.tdiv old_r r * r) :=
          h2.mul_left _
        have hsub := h1.sub hmul
        have heq : old_s * a - Int.tdiv old_r r * (s * a)
            = (old_s - Int.tdiv old_r r * s) * a := by ring
        exact heq ▸ hsub
      have hgcd : Int.gcd r (old_r - Int.tdiv old_r r * r) = Int.gcd old_r r := by
        rw [hres]
        obtain ⟨m, rfl⟩ : ∃ m : Nat, old_r = (m : Int) :=
          ⟨old_r.toNat, (Int.toNat_of_nonneg hor).symm⟩
        obtain ⟨n, rfl⟩ : ∃ n : Nat, r = (n : Int) :=
          ⟨r.toNat, (Int.toNat_of_nonneg hr).symm⟩
        have hcast : (m : Int) % (n : Int) = ((m % n : Nat) : Int) := by
          exact_mod_cast (Int.ofNat_emod m n).symm
        rw [hcast]
        show Nat.gcd n (m % n) = Nat.gcd m n
        rw [Nat.gcd_comm n (m % n), ← Nat.gcd_rec n m, Nat.gcd_comm]
      have := ih r (old_r - Int.tdiv old_r r * r) s (old_s - Int.tdiv old_r r * s)
        hr (hres ▸ hmod0) hfuel' h2 h2'
      rw [hgcd] at this
      exact this

theorem modInverse_modeq {P : Nat} (hP : P.Prime) {a : Int}
    (ha0 : 0 < a) (hap : a < (P : Int)) :
    Int.ModEq P (modInverse a P * a) 1 := by
  unfold modInverse
  have hnat : ((P : Int).natAbs) = P := Int.natAbs_ofNat P
  have h1 : Int.ModEq P ((1 : Int) * a) a := by rw [one_mul]
  have h2 : Int.ModEq P ((0 : Int) * a) (P : Int) := by
    show (0 : Int) * a % P = (P : Int) % P
    simp
  have hspec := egcdGo_spec P a ((P : Int).natAbs + 1) a (P : Int) 1 0
    (by omega) (by omega) (by omega) h1 h2
  have hgcd : Int.gcd a (P : Int) = 1 := by
    have hnd : ¬ (P ∣ a.natAbs) := by
      intro hdvd
      have h0 : 0 < a.natAbs := by omega
      have := Nat.le_of_dvd h0 hdvd
      omega
    have hco : Nat.Coprime P a.natAbs := (Nat.Prime.coprime_iff_not_dvd hP).mpr hnd
    show Nat.gcd a.natAbs (P : Int).natAbs = 1
    rw [hnat, Nat.gcd_comm]
    exact hco
  rw [hgcd] at hspec
  have hjj : Int.ModEq P (jjmod (egcdGo ((P : Int).natAbs + 1) a (P : Int) 1 0) P * a)
      (egcdGo ((P : Int).natAbs + 1) a (P : Int) 1 0 * a) :=
    Int.ModEq.mul_right a jjmod_modeq
  exact hjj.trans (by exact_mod_cast hspec)

/-! ## Jubjub curve constants from `src/crypto/sapling.ts` -/

/-- BLS12-381 scalar field order, as a natural number (for `ZMod`). -/
def FRp : Nat := 0x73eda753299d7d483339d80809a1d80553bda402fffe5bfeffffffff00000001

/-- `FR_MODULUS` from `src/crypto/sapling.ts`. -/
def FR_MODULUS : Int :=
  0x73eda753299d7d483339d80809a1d80553bda402fffe5bfeffffffff00000001

/-- `JUBJUB_ORDER` from `src/crypto/sapling.ts`. -/
def JUBJUB_ORDER : Int :=
  0x0e7db4ea6533afa906673b0101343b00a6682093ccc81082d0970e5ed6f72cb7

/-- `JUBJUB_D` from `src/crypto/sapling.ts`. -/
def JUBJUB_D : Int :=
  0x2a9318e74bfa2b48f5fd9207e6bd7fd4292d7f6d37579d2601065fd6d6343eb1

/-- `JUBJUB_A` from `src/crypto/sapling.ts`: `FR_MODULUS - 1`, i.e. `-1` mod p. -/
def JUBJUB_A : Int := FR_MODULUS - 1

theorem FR_MODULUS_eq_cast : FR_MODULUS = (FRp : Int) := by decide

/-! ### Primality of the base-field order, by the Lucas test with witness 7.
The factorization of `FRp - 1` used below is
`2 ^ 32 * 3 * 11 * 19 * 10177 * 125527 * 859267 * 906349 ^ 2 * 2508409 *
2529403 * 52437899 * 254760293 ^ 2`. -/

theorem modPow_zmod_eq (P : Nat) (b : Nat) (e : Nat) :
    ((modPow (b : Int) (e : Int) (P : Int) : Int) : ZMod P) = (b : ZMod P) ^ e := by
  have h := modPow_modeq (b := (b : Int)) (e := (e : Int)) (m := (P : Int))
    (by omega)
  have h2 : ((modPow (b : Int) (e : Int) (P : Int) : Int) : ZMod P)
      = (((b : Int) ^ ((e : Int)).toNat : Int) : ZMod P) :=
    (ZMod.intCast_eq_intCast_iff _ _ _).mpr h
  rw [h2]
  push_cast
  rw [Int.toNat_ofNat]

theorem modPow_zmod_ne_one {P : Nat} (hP : 1 < P) (b e : Nat)
    (h : modPow (b : Int) (e : Int) (P : Int) ≠ 1) : (b : ZMod P) ^ e ≠ 1 := by
  intro habs
  apply h
  rw [← modPow_zmod_eq P b e] at habs
  have hrange := modPow_range (b := (b : Int)) (e := (e : Int)) (m := (P : Int))
    (by exact_mod_cast hP) (by omega)
  have h1 : ((modPow (b : Int) (e : Int) (P : Int) : Int) : ZMod P) = ((1 : Int) : ZMod P) := by
    rw [habs]
    push_cast
    rfl
  have h2 := (ZMod.intCast_eq_intCast_iff _ _ _).mp h1
  have h3 : modPow (b : Int) (e : Int) (P : Int) % (P : Int) = 1 % (P : Int) := h2
  rw [Int.emod_eq_of_lt (by omega) hrange.2, Int.emod_eq_of_lt (by omega)
    (by exact_mod_cast hP)] at h3
  exact h3

theorem modPow_zmod_eq_one {P : Nat} (b e : Nat)
    (h : modPow (b : Int) (e : Int) (P : Int) = 1) : (b : ZMod P) ^ e = 1 := by
  rw [← modPow_zmod_eq P b e, h]
  push_cast
  rfl

/-- The two largest prime factors of `FRp - 1` are too big for a
trial-division certificate, so they get Lucas certificates of their own
(computed with the embedded `modPow`): `52437899 - 1 = 2 * 43 * 609743`
with witness 2, and `254760293 - 1 = 2^2 * 63690073` with witness 2, where
`63690073 - 1 = 2^3 * 3 * 2653753` with witness 7. -/
theorem prime_609743 : Nat.Prime 609743 := by norm_num

theorem prime_2653753 : Nat.Prime 2653753 := by norm_num

theorem prime_63690073 : Nat.Prime 63690073 := by
  apply lucas_primality 63690073 7 (modPow_zmod_eq_one 7 (63690073 - 1) (by decide))
  intro r hr hdvd
  have hfac : (63690073 : Nat) - 1 = 2 ^ 3 * (3 * 2653753) := by norm_num
  rw [hfac] at hdvd
  rcases (Nat.Prime.dvd_mul hr).mp hdvd with h | h
  · have hr2 : r = 2 := (Nat.prime_dvd_prime_iff_eq hr (by norm_num)).mp
      (hr.dvd_of_dvd_pow h)
    rw [hr2]
    exact modPow_zmod_ne_one (by norm_num) 7 ((63690073 - 1) / 2) (by decide)
  rcases (Nat.Prime.dvd_mul hr).mp h with h2 | h2
  · have hr3 : r = 3 := (Nat.prime_dvd_prime_iff_eq hr (by norm_num)).mp h2
    rw [hr3]
    exact modPow_zmod_ne_one (by norm_num) 7 ((63690073 - 1) / 3) (by decide)
  · have hr4 : r = 2653753 := (Nat.prime_dvd_prime_iff_eq hr prime_2653753).mp h2
    rw [hr4]
    exact modPow_zmod_ne_one (by norm_num) 7 ((63690073 - 1) / 2653753) (by decide)

theorem prime_52437899 : Nat.Prime 52437899 := by
  apply lucas_primality 52437899 2 (modPow_zmod_eq_one 2 (52437899 - 1) (by decide))
  intro r hr hdvd
  have hfac : (52437899 : Nat) - 1 = 2 * (43 * 609743) := by norm_num
  rw [hfac] at hdvd
  rcases (Nat.Prime.dvd_mul hr).mp hdvd with h | h
  · have hr2 : r = 2 := (Nat.prime_dvd_prime_iff_eq hr (by norm_num)).mp h
    rw [hr2]
    exact modPow_zmod_ne_one (by norm_num) 2 ((52437899 - 1) / 2) (by decide)
  rcases (Nat.Prime.dvd_mul hr).mp h with h2 | h2
  · have hr3 : r = 43 := (Nat.prime_dvd_prime_iff_eq hr (by norm_num)).mp h2
    rw [hr3]
    exact modPow_zmod_ne_one (by norm_num) 2 ((52437899 - 1) / 43) (by decide)
  · have hr4 : r = 609743 := (Nat.prime_dvd_prime_iff_eq hr prime_609743).mp h2
    rw [hr4]
    exact modPow_zmod_ne_one (by norm_num) 2 ((52437899 - 1) / 609743) (by decide)

theorem prime_254760293 : Nat.Prime 254760293 := by
  apply lucas_primality 254760293 2
    (modPow_zmod_eq_one 2 (254760293 - 1) (by decide))
  intro r hr hdvd
  have hfac : (254760293 : Nat) - 1 = 2 ^ 2 * 63690073 := by norm_num
  rw [hfac] at hdvd
  rcases (Nat.Prime.dvd_mul hr).mp hdvd with h | h
  · have hr2 : r = 2 := (Nat.prime_dvd_prime_iff_eq hr (by norm_num)).mp
      (hr.dvd_of_dvd_pow h)
    rw [hr2]
    exact modPow_zmod_ne_one (by norm_num) 2 ((254760293 - 1) / 2) (by decide)
  · have hr3 : r = 63690073 := (Nat.prime_dvd_prime_iff_eq hr prime_63690073).mp h
    rw [hr3]
    exact modPow_zmod_ne_one (by norm_num) 2 ((254760293 - 1) / 63690073) (by decide)

set_option maxRecDepth 8000 in
theorem FRp_sub_one_fac : FRp - 1 = 2 ^ 32 * (3 * (11 * (19 * (10177 * (125527 *
    (859267 * (906349 ^ 2 * (2508409 * (2529403 * (52437899 * 254760293 ^ 2)))))))))) := by
  decide

set_option maxRecDepth 8000 in
theorem FRp_fermat : (7 : ZMod FRp) ^ (FRp - 1) = 1 :=
  modPow_zmod_eq_one 7 (FRp - 1) (by decide)

theorem FRp_factor_mem {q : Nat} (hq : q.Prime) (hdvd : q ∣ FRp - 1) :
    q = 2 ∨ q = 3 ∨ q = 11 ∨ q = 19 ∨ q = 10177 ∨ q = 125527 ∨ q = 859267 ∨
    q = 906349 ∨ q = 2508409 ∨ q = 2529403 ∨ q = 52437899 ∨ q = 254760293 := by
  rw [FRp_sub_one_fac] at hdvd
  have heq : ∀ r : Nat, r.Prime → q ∣ r → q = r := fun r hr h =>
    (Nat.prime_dvd_prime_iff_eq hq hr).mp h
  have hpow : ∀ (r k : Nat), r.Prime → q ∣ r ^ k → q = r := fun r k hr h =>
    heq r hr (hq.dvd_of_dvd_pow h)
  rcases (Nat.Prime.dvd_mul hq).mp hdvd with h | h
  · exact Or.inl (hpow 2 32 (by norm_num) h)
  rcases (Nat.Prime.dvd_mul hq).mp h with h | h
  · exact Or.inr (Or.inl (heq 3 (by norm_num) h))
  rcases (Nat.Prime.dvd_mul hq).mp h with h | h
  · exact Or.inr (Or.inr (Or.inl (heq 11 (by norm_num) h)))
  rcases (Nat.Prime.dvd_mul hq).mp h with h | h
  · exact Or.inr (Or.inr (Or.inr (Or.inl (heq 19 (by norm_num) h))))
  rcases (Nat.Prime.dvd_mul hq).mp h with h | h
  · exact Or.inr (Or.inr (Or.inr (Or.inr (Or.inl (heq 10177 (by norm_num) h)))))
  rcases (Nat.Prime.dvd_mul hq).mp h with h | h
  · exact Or.inr (Or.inr (Or.inr (Or.inr (Or.inr (Or.inl (heq 125527 (by norm_num) h))))))
  rcases (Nat.Prime.dvd_mul hq).mp h with h | h
  · exact Or.inr (Or.inr (Or.inr (Or.inr (Or.inr (Or.inr (Or.inl
      (heq 859267 (by norm_num) h)))))))
  rcases (Nat.Prime.dvd_mul hq).mp h with h | h
  · exact Or.inr (Or.inr (Or.inr (Or.inr (Or.inr (Or.inr (Or.inr (Or.inl
      (hpow 906349 2 (by norm_num) h))))))))
  rcases (Nat.Prime.dvd_mul hq).mp h with h | h
  · exact Or.inr (Or.inr (Or.inr (Or.inr (Or.inr (Or.inr (Or.inr (Or.inr (Or.inl
      (heq 2508409 (by norm_num) h)))))))))
  rcases (Nat.Prime.dvd_mul hq).mp h with h | h
  · exact Or.inr (Or.inr (Or.inr (Or.inr (Or.inr (Or.inr (Or.inr (Or.inr (Or.inr (Or.inl
      (heq 2529403 (by norm_num) h))))))))))
  rcases (Nat.Prime.dvd_mul hq).mp h with h | h
  · exact Or.inr (Or.inr (Or.inr (Or.inr (Or.inr (Or.inr (Or.inr (Or.inr (Or.inr (Or.inr
      (Or.inl (heq 52437899 prime_52437899 h)))))))))))
  · exact Or.inr (Or.inr (Or.inr (Or.inr (Or.inr (Or.inr (Or.inr (Or.inr (Or.inr (Or.inr
      (Or.inr (hpow 254760293 2 prime_254760293 h)))))))))))

set_option maxRecDepth 8000 in
theorem FRp_prime : Nat.Prime FRp := by
  apply lucas_primality FRp 7 FRp_fermat
  intro q hq hdvd
  rcases FRp_factor_mem hq hdvd with rfl | rfl | rfl | rfl | rfl | rfl | rfl | rfl |
    rfl | rfl | rfl | rfl
  · exact modPow_zmod_ne_one (by decide) 7 ((FRp - 1) / 2) (by decide)
  · exact modPow_zmod_ne_one (by decide) 7 ((FRp - 1) / 3) (by decide)
  · exact modPow_zmod_ne_one (by decide) 7 ((FRp - 1) / 11) (by decide)
  · exact modPow_zmod_ne_one (by decide) 7 ((FRp - 1) / 19) (by decide)
  · exact modPow_zmod_ne_one (by decide) 7 ((FRp - 1) / 10177) (by decide)
  · exact modPow_zmod_ne_one (by decide) 7 ((FRp - 1) / 125527) (by decide)
  · exact modPow_zmod_ne_one (by decide) 7 ((FRp - 1) / 859267) (by decide)
  · exact modPow_zmod_ne_one (by decide) 7 ((FRp - 1) / 906349) (by decide)
  · exact modPow_zmod_ne_one (by decide) 7 ((FRp - 1) / 2508409) (by decide)
  · exact modPow_zmod_ne_one (by decide) 7 ((FRp - 1) / 2529403) (by decide)
  · exact modPow_zmod_ne_one (by decide) 7 ((FRp - 1) / 52437899) (by decide)
  · exact modPow_zmod_ne_one (by decide) 7 ((FRp - 1) / 254760293) (by decide)

instance FRp_prime_fact : Fact (Nat.Prime FRp) := ⟨FRp_prime⟩

/-! ## `modSqrt` (Tonelli–Shanks) from `src/crypto/sapling.ts` -/

/-- The `while (mod(q, 2) === 0) { q /= 2; s++ }` loop of `modSqrt`,
with fuel (`q` halves each step, so `q.natAbs + 1` fuel covers it). -/
def findQS : Nat → Int → Int → Int × Int
  | 0, q, s => (q, s)
  | fuel + 1, q, s =>
    if jjmod q 2 = 0 then findQS fuel (Int.tdiv q 2) (s + 1) else (q, s)

/-- The non-residue search `while (modPow(z, (p-1)/2, p) !== p-1) z++` of
`modSqrt`, with fuel; `none` stands for the source loop running past the
fuel bound, which never happens for an odd prime `p`. -/
def findZ : Nat → Int → Int → Option Int
  | 0, _, _ => none
  | fuel + 1, z, p =>
    if modPow z (Int.tdiv (p - 1) 2) p ≠ p - 1 then findZ fuel (z + 1) p
    else some z

/-- The inner `while (temp !== 1 && i < m)` loop of `modSqrt`, with fuel. -/
def tsFindI : Nat → Int → Int → Int → Int → Int
  | 0, _, _, i, _ => i
  | fuel + 1, p, m, i, temp =>
    if temp ≠ 1 ∧ i < m then tsFindI fuel p m (i + 1) (jjmod (temp * temp) p)
    else i

/-- The outer `while (true)` loop of `modSqrt`, with fuel.  `m` strictly
decreases across iterations, so `m.natAbs + 1` fuel covers every run that
the source loop finishes; `1n << (m - i - 1n)` is `2 ^ (m - i - 1)`. -/
def tsLoop : Nat → Int → Int → Int → Int → Int → Option Int
  | 0, _, _, _, _, _ => none
  | fuel + 1, p, m, c, t, r =>
    if t = 1 then some r
    else
      let i := tsFindI (m.natAbs + 1) p m 1 (jjmod (t * t) p)
      if i = m then none
      else
        let b := modPow c (2 ^ (m - i - 1).toNat) p
        let c2 := jjmod (b * b) p
        tsLoop fuel p i c2 (jjmod (t * c2) p) (jjmod (r * b) p)

/-- `modSqrt(n, p)` from `src/crypto/sapling.ts`. -/
def modSqrt (n p : Int) : Option Int :=
  if n = 0 then some 0
  else if modPow n (Int.tdiv (p - 1) 2) p ≠ 1 then none
  else if jjmod p 4 = 3 then some (modPow n (Int.tdiv (p + 1) 4) p)
  else
    let qs := findQS ((p - 1).natAbs + 1) (p - 1) 0
    match findZ (p.natAbs + 1) 2 p with
    | none => none
    | some z =>
      tsLoop (qs.2.natAbs + 1) p qs.2 (modPow z qs.1 p) (modPow n qs.1 p)
        (modPow n (Int.tdiv (qs.1 + 1) 2) p)

theorem tsLoop_sound (p n : Int) :
    ∀ (fuel : Nat) (m c t r x : Int), Int.ModEq p (r * r) (n * t) →
      tsLoop fuel p m c t r = some x → Int.ModEq p (x * x) n := by
  intro fuel
  induction fuel with
  | zero => intro m c t r x _ h; simp [tsLoop] at h
  | succ fuel ih =>
    intro m c t r x hinv h
    rw [tsLoop] at h
    by_cases ht : t = 1
    · rw [if_pos ht] at h
      have hx : r = x := by exact Option.some.inj h
      subst hx
      subst ht
      rw [mul_one] at hinv
      exact hinv
    · rw [if_neg ht] at h
      simp only at h
      by_cases hi : tsFindI (m.natAbs + 1) p m 1 (jjmod (t * t) p) = m
      · rw [if_pos hi] at h
        exact absurd h (by simp)
      · rw [if_neg hi] at h
        set i := tsFindI (m.natAbs + 1) p m 1 (jjmod (t * t) p) with hidef
        set b := modPow c (2 ^ (m - i - 1).toNat) p with hbdef
        apply ih i (jjmod (b * b) p) (jjmod (t * jjmod (b * b) p) p) (jjmod (r * b) p) x
          ?_ h
        have h1 : Int.ModEq p (jjmod (r * b) p * jjmod (r * b) p) ((r * b) * (r * b)) :=
          jjmod_modeq.mul jjmod_modeq
        have h2 : Int.ModEq p ((r * b) * (r * b)) ((n * t) * (b * b)) := by
          have heq : (r * b) * (r * b) = (r * r) * (b * b) := by ring
          rw [heq]
          exact hinv.mul_right _
        have h3 : Int.ModEq p (n * jjmod (t * jjmod (b * b) p) p) ((n * t) * (b * b)) := by
          have h4 : Int.ModEq p (jjmod (t * jjmod (b * b) p) p) (t * (b * b)) :=
            jjmod_modeq.trans (Int.ModEq.mul_left t jjmod_modeq)
          have h5 := h4.mul_left n
          have heq : n * (t * (b * b)) = (n * t) * (b * b) := by ring
          rw [heq] at h5
          exact h5
        exact (h1.trans h2).trans h3.symm

theorem tsLoop_range (p : Int) (hp : 1 < p) :
    ∀ (fuel : Nat) (m c t r x : Int), 0 ≤ r → r < p →
      tsLoop fuel p m c t r = some x → 0 ≤ x ∧ x < p := by
  intro fuel
  induction fuel with
  | zero => intro m c t r x _ _ h; simp [tsLoop] at h
  | succ fuel ih =>
    intro m c t r x hr hrp h
    rw [tsLoop] at h
    by_cases ht : t = 1
    · rw [if_pos ht] at h
      have hx : r = x := Option.some.inj h
      subst hx
      exact ⟨hr, hrp⟩
    · rw [if_neg ht] at h
      simp only at h
      by_cases hi : tsFindI (m.natAbs + 1) p m 1 (jjmod (t * t) p) = m
      · rw [if_pos hi] at h
        exact absurd h (by simp)
      · rw [if_neg hi] at h
        exact ih _ _ _ _ x (jjmod_nonneg (by omega)) (jjmod_lt (by omega)) h

theorem findQS_spec (fuel : Nat) :
    ∀ (q s : Int), 0 < q → q.natAbs < fuel →
      0 < (findQS fuel q s).1 ∧ ¬ (2 ∣ (findQS fuel q s).1) := by
  induction fuel with
  | zero => intro q _ _ h; omega
  | succ fuel ih =>
    intro q s hq hfuel
    rw [findQS]
    by_cases he : jjmod q 2 = 0
    · rw [if_pos he]
      have hdvd : (2 : Int) ∣ q := by
        have h1 : jjmod q 2 = q % 2 := jjmod_eq_emod (by omega)
        omega
      have htd : Int.tdiv q 2 = q / 2 := Int.tdiv_eq_ediv (by omega) (by omega)
      refine ih (Int.tdiv q 2) (s + 1) ?_ ?_
      · rw [htd]
        omega
      · rw [htd]
        omega
    · rw [if_neg he]
      refine ⟨hq, ?_⟩
      intro hdvd
      apply he
      have h1 : jjmod q 2 = q % 2 := jjmod_eq_emod (by omega)
      omega

theorem modSqrt_sound {n p x : Int} (hp : 1 < p) (h : modSqrt n p = some x) :
    Int.ModEq p (x * x) n := by
  unfold modSqrt at h
  by_cases hn : n = 0
  · rw [if_pos hn] at h
    have hx : (0 : Int) = x := Option.some.inj h
    subst hn
    rw [← hx]
    rfl
  · rw [if_neg hn] at h
    by_cases hleg : modPow n (Int.tdiv (p - 1) 2) p ≠ 1
    · rw [if_pos hleg] at h
      exact absurd h (by simp)
    · rw [if_neg hleg] at h
      push_neg at hleg
      have htd2 : Int.tdiv (p - 1) 2 = (p - 1) / 2 := Int.tdiv_eq_ediv (by omega) (by omega)
      have hlegmod : Int.ModEq p ((1 : Int)) (n ^ ((p - 1) / 2).toNat) := by
        have h0 := modPow_modeq (b := n) (e := Int.tdiv (p - 1) 2) (m := p)
          (by rw [htd2]; omega)
        rw [hleg, htd2] at h0
        exact h0
      by_cases h34 : jjmod p 4 = 3
      · rw [if_pos h34] at h
        have hx := Option.some.inj h
        have hp4 : p % 4 = 3 := by
          rw [jjmod_eq_emod (by omega)] at h34
          exact h34
        have htd4 : Int.tdiv (p + 1) 4 = (p + 1) / 4 := Int.tdiv_eq_ediv (by omega) (by omega)
        have hmp := modPow_modeq (b := n) (e := Int.tdiv (p + 1) 4) (m := p)
          (by rw [htd4]; omega)
        rw [← hx]
        have hxx : Int.ModEq p (modPow n (Int.tdiv (p + 1) 4) p * modPow n (Int.tdiv (p + 1) 4) p)
            (n ^ (Int.tdiv (p + 1) 4).toNat * n ^ (Int.tdiv (p + 1) 4).toNat) :=
          hmp.mul hmp
        have hexp : (Int.tdiv (p + 1) 4).toNat + (Int.tdiv (p + 1) 4).toNat
            = ((p - 1) / 2).toNat + 1 := by
          rw [htd4]
          omega
        have hpow : n ^ (Int.tdiv (p + 1) 4).toNat * n ^ (Int.tdiv (p + 1) 4).toNat
            = n ^ (((p - 1) / 2).toNat) * n := by
          rw [← pow_add, hexp, pow_succ]
        rw [hpow] at hxx
        have hfin : Int.ModEq p (n ^ (((p - 1) / 2).toNat) * n) n := by
          have := (hlegmod.symm).mul_right n
          rw [one_mul] at this
          exact this
        exact hxx.trans hfin
      · rw [if_neg h34] at h
        simp only at h
        rcases hz : findZ (p.natAbs + 1) 2 p with _ | z
        · rw [hz] at h
          exact absurd h (by simp)
        · rw [hz] at h
          set qs := findQS ((p - 1).natAbs + 1) (p - 1) 0 with hqs
          have hqspec := findQS_spec ((p - 1).natAbs + 1) (p - 1) 0 (by omega) (by omega)
          rw [← hqs] at hqspec
          obtain ⟨hqpos, hqodd⟩ := hqspec
          have htdq : Int.tdiv (qs.1 + 1) 2 = (qs.1 + 1) / 2 :=
            Int.tdiv_eq_ediv (by omega) (by omega)
          apply tsLoop_sound p n _ qs.2 (modPow z qs.1 p) (modPow n qs.1 p)
            (modPow n (Int.tdiv (qs.1 + 1) 2) p) x ?_ h
          have hr := modPow_modeq (b := n) (e := Int.tdiv (qs.1 + 1) 2) (m := p)
            (by rw [htdq]; omega)
          have ht := modPow_modeq (b := n) (e := qs.1) (m := p) (by omega)
          have h1 : Int.ModEq p
              (modPow n (Int.tdiv (qs.1 + 1) 2) p * modPow n (Int.tdiv (qs.1 + 1) 2) p)
              (n ^ (Int.tdiv (qs.1 + 1) 2).toNat * n ^ (Int.tdiv (qs.1 + 1) 2).toNat) :=
            hr.mul hr
          have hexp : (Int.tdiv (qs.1 + 1) 2).toNat + (Int.tdiv (qs.1 + 1) 2).toNat
              = qs.1.toNat + 1 := by
            rw [htdq]
            omega
          have h2 : n ^ (Int.tdiv (qs.1 + 1) 2).toNat * n ^ (Int.tdiv (qs.1 + 1) 2).toNat
              = n * n ^ qs.1.toNat := by
            rw [← pow_add, hexp, pow_succ]
            ring
          rw [h2] at h1
          have h3 : Int.ModEq p (n * n ^ qs.1.toNat) (n * modPow n qs.1 p) :=
            Int.ModEq.mul_left n ht.symm
          exact h1.trans h3

theorem modSqrt_range {n p x : Int} (hp : 1 < p) (hn : 0 ≤ n)
    (h : modSqrt n p = some x) : 0 ≤ x ∧ x < p := by
  unfold modSqrt at h
  by_cases hn0 : n = 0
  · rw [if_pos hn0] at h
    have hx : (0 : Int) = x := Option.some.inj h
    omega
  · rw [if_neg hn0] at h
    by_cases hleg : modPow n (Int.tdiv (p - 1) 2) p ≠ 1
    · rw [if_pos hleg] at h
      exact absurd h (by simp)
    · rw [if_neg hleg] at h
      by_cases h34 : jjmod p 4 = 3
      · rw [if_pos h34] at h
        have hx := Option.some.inj h
        rw [← hx]
        exact modPow_range hp hn
      · rw [if_neg h34] at h
        simp only at h
        rcases hz : findZ (p.natAbs + 1) 2 p with _ | z
        · rw [hz] at h
          exact absurd h (by simp)
        · rw [hz] at h
          exact tsLoop_range p hp _ _ _ _ _ x (modPow_range hp hn).1
            (modPow_range hp hn).2 h

theorem intCast_zmod_inj {P : Nat} {v w : Int}
    (hv0 : 0 ≤ v) (hv1 : v < P) (hw0 : 0 ≤ w) (hw1 : w < P)
    (h : ((v : ZMod P) : ZMod P) = (w : ZMod P)) : v = w := by
  have h2 := (ZMod.intCast_eq_intCast_iff _ _ _).mp h
  have h3 : v % (P : Int) = w % (P : Int) := h2
  rw [Int.emod_eq_of_lt hv0 hv1, Int.emod_eq_of_lt hw0 hw1] at h3
  exact h3

theorem intCast_modPow {P : Nat} {b e : Int} (he : 0 ≤ e) :
    ((modPow b e (P : Int) : Int) : ZMod P) = ((b : Int) : ZMod P) ^ e.toNat := by
  have h := modPow_modeq (b := b) (e := e) (m := (P : Int)) he
  have h2 := (ZMod.intCast_eq_intCast_iff _ _ _).mpr h
  rw [h2]
  push_cast
  rfl

theorem intCast_jjmod {P : Nat} (v : Int) :
    ((jjmod v (P : Int) : Int) : ZMod P) = ((v : Int) : ZMod P) :=
  (ZMod.intCast_eq_intCast_iff _ _ _).mpr jjmod_modeq

theorem cast_p_sub_one (P : Nat) :
    (((P : Int) - 1 : Int) : ZMod P) = -1 := by
  push_cast
  rw [ZMod.natCast_self]
  ring

/-- Every `z` that `findZ` returns satisfies the loop's stop condition. -/
theorem findZ_stop {p : Int} :
    ∀ (fuel : Nat) (z z' : Int), findZ fuel z p = some z' →
      modPow z' (Int.tdiv (p - 1) 2) p = p - 1 := by
  intro fuel
  induction fuel with
  | zero => intro z z' h; simp [findZ] at h
  | succ fuel ih =>
    intro z z' h
    rw [findZ] at h
    by_cases hc : modPow z (Int.tdiv (p - 1) 2) p ≠ p - 1
    · rw [if_pos hc] at h
      exact ih _ _ h
    · rw [if_neg hc] at h
      push_neg at hc
      have hz : z = z' := Option.some.inj h
      rw [← hz]
      exact hc

/-- If some `w ≥ z` below the fuel bound satisfies the stop condition, then
the non-residue search halts. -/
theorem findZ_some {p : Int} (w : Int)
    (hw : modPow w (Int.tdiv (p - 1) 2) p = p - 1) :
    ∀ (fuel : Nat) (z : Int), z ≤ w → (w - z).toNat < fuel →
      ∃ z', findZ fuel z p = some z' := by
  intro fuel
  induction fuel with
  | zero => intro z _ h; omega
  | succ fuel ih =>
    intro z hzw hfuel
    rw [findZ]
    by_cases hc : modPow z (Int.tdiv (p - 1) 2) p ≠ p - 1
    · rw [if_pos hc]
      have hne : z ≠ w := fun h => hc (h ▸ hw)
      exact ih (z + 1) (by omega) (by omega)
    · rw [if_neg hc]
      exact ⟨z, rfl⟩

/-- The halving loop preserves `q * 2 ^ s` and only increases `s`. -/
theorem findQS_inv :
    ∀ (fuel : Nat) (q s : Int), 0 < q → q.natAbs < fuel →
      ∃ k : Nat, (findQS fuel q s).2 = s + k ∧ (findQS fuel q s).1 * 2 ^ k = q := by
  intro fuel
  induction fuel with
  | zero => intro q s _ h; omega
  | succ fuel ih =>
    intro q s hq hfuel
    rw [findQS]
    by_cases he : jjmod q 2 = 0
    · rw [if_pos he]
      have hdvd : (2 : Int) ∣ q := by
        have h1 : jjmod q 2 = q % 2 := jjmod_eq_emod (by omega)
        omega
      have htd : Int.tdiv q 2 = q / 2 := Int.tdiv_eq_ediv (by omega) (by omega)
      obtain ⟨k, hk1, hk2⟩ := ih (Int.tdiv q 2) (s + 1) (by rw [htd]; omega)
        (by rw [htd]; omega)
      refine ⟨k + 1, by omega, ?_⟩
      rw [pow_succ, ← mul_assoc]
      have h2 : (findQS fuel (Int.tdiv q 2) (s + 1)).1 * 2 ^ k * 2 = (Int.tdiv q 2) * 2 := by
        rw [hk2]
      rw [h2, htd]
      omega
    · rw [if_neg he]
      exact ⟨0, by omega, by simp⟩

theorem tsFindI_spec {P : Nat} (hP : 1 < P) (T : ZMod P) (m : Int) :
    ∀ (fuel : Nat) (i temp : Int), 1 ≤ i → 0 ≤ temp → temp < (P : Int) →
      ((temp : ZMod P) = T ^ (2 ^ i.toNat)) →
      (∀ j : Nat, j < i.toNat → T ^ (2 ^ j) ≠ 1) →
      (∃ k : Nat, i.toNat ≤ k ∧ (k : Int) ≤ m - 1 ∧ T ^ (2 ^ k) = 1) →
      (m - i).toNat < fuel →
      1 ≤ tsFindI fuel (P : Int) m i temp ∧ tsFindI fuel (P : Int) m i temp < m ∧
        T ^ (2 ^ (tsFindI fuel (P : Int) m i temp).toNat) = 1 ∧
        ∀ j' : Nat, j' < (tsFindI fuel (P : Int) m i temp).toNat → T ^ (2 ^ j') ≠ 1 := by
  intro fuel
  induction fuel with
  | zero =>
    intro i temp hi _ _ _ _ hex hfuel
    obtain ⟨k, hk1, hk2, _⟩ := hex
    omega
  | succ fuel ih =>
    intro i temp hi htemp0 htempP hcast hmin hex hfuel
    obtain ⟨k, hk1, hk2, hk3⟩ := hex
    rw [tsFindI]
    by_cases hcond : temp ≠ 1 ∧ i < m
    · rw [if_pos hcond]
      have hTi : T ^ (2 ^ i.toNat) ≠ 1 := by
        rw [← hcast]
        intro habs
        have h1 : ((temp : ZMod P) : ZMod P) = ((1 : Int) : ZMod P) := by
          rw [habs]
          push_cast
          rfl
        exact hcond.1 (intCast_zmod_inj htemp0 htempP (by omega) (by exact_mod_cast hP) h1)
      have hcast' : ((jjmod (temp * temp) (P : Int) : Int) : ZMod P)
          = T ^ (2 ^ (i + 1).toNat) := by
        rw [intCast_jjmod]
        push_cast
        rw [hcast, ← pow_add]
        have hexp : 2 ^ i.toNat + 2 ^ i.toNat = 2 ^ (i + 1).toNat := by
          have h1 : (i + 1).toNat = i.toNat + 1 := by omega
          rw [h1, pow_succ]
          omega
        rw [hexp]
      have hmin' : ∀ j : Nat, j < (i + 1).toNat → T ^ (2 ^ j) ≠ 1 := by
        intro j hj
        by_cases hji : j < i.toNat
        · exact hmin j hji
        · have hj' : j = i.toNat := by omega
          rw [hj']
          exact hTi
      have hex' : ∃ k : Nat, (i + 1).toNat ≤ k ∧ (k : Int) ≤ m - 1 ∧ T ^ (2 ^ k) = 1 := by
        refine ⟨k, ?_, hk2, hk3⟩
        by_cases hki : k = i.toNat
        · exact absurd (hki ▸ hk3) hTi
        · omega
      exact ih (i + 1) (jjmod (temp * temp) (P : Int)) (by omega)
        (jjmod_nonneg (by omega)) (jjmod_lt (by omega)) hcast' hmin' hex' (by omega)
    · rw [if_neg hcond]
      push_neg at hcond
      by_cases htemp1 : temp = 1
      · have hT1 : T ^ (2 ^ i.toNat) = 1 := by
          rw [← hcast, htemp1]
          push_cast
          rfl
        exact ⟨hi, by omega, hT1, hmin⟩
      · have him := hcond htemp1
        omega

theorem tsLoop_some {P : Nat} [Fact P.Prime] (hP : 1 < P) :
    ∀ (fuel : Nat) (m c t r : Int), 1 ≤ m → m.natAbs < fuel →
      0 ≤ t → t < (P : Int) →
      ((t : ZMod P) ^ (2 ^ (m.toNat - 1)) = 1) →
      ((c : ZMod P) ^ (2 ^ (m.toNat - 1)) = -1) →
      ∃ x, tsLoop fuel (P : Int) m c t r = some x := by
  intro fuel
  induction fuel with
  | zero => intro m c t r _ hfuel _ _ _ _; omega
  | succ fuel ih =>
    intro m c t r hm hfuel ht0 htP hA1 hA2
    rw [tsLoop]
    by_cases ht1 : t = 1
    · rw [if_pos ht1]
      exact ⟨r, rfl⟩
    · rw [if_neg ht1]
      simp only
      set T : ZMod P := ((t : Int) : ZMod P) with hT
      have hTne1 : T ≠ 1 := by
        intro habs
        apply ht1
        refine intCast_zmod_inj ht0 htP (by omega) (by exact_mod_cast hP) ?_
        rw [← hT, habs]
        push_cast
        rfl
      have hm2 : 2 ≤ m := by
        rcases Int.lt_or_le 1 m with h | h
        · omega
        · exfalso
          have hmeq : m = 1 := by omega
          rw [hmeq] at hA1
          simp at hA1
          exact hTne1 hA1
      have hcast1 : ((jjmod (t * t) (P : Int) : Int) : ZMod P) = T ^ (2 ^ (1 : Int).toNat) := by
        rw [intCast_jjmod]
        push_cast
        rw [hT]
        ring
      have hex : ∃ k : Nat, (1 : Int).toNat ≤ k ∧ (k : Int) ≤ m - 1 ∧ T ^ (2 ^ k) = 1 := by
        refine ⟨m.toNat - 1, by omega, by omega, hA1⟩
      have hmin : ∀ j : Nat, j < (1 : Int).toNat → T ^ (2 ^ j) ≠ 1 := by
        intro j hj
        have hj0 : j = 0 := by omega
        rw [hj0]
        simpa using hTne1
      have hspec := tsFindI_spec hP T m (m.natAbs + 1) 1 (jjmod (t * t) (P : Int))
        (by omega) (jjmod_nonneg (by omega)) (jjmod_lt (by omega)) hcast1 hmin hex
        (by omega)
      set i := tsFindI (m.natAbs + 1) (P : Int) m 1 (jjmod (t * t) (P : Int)) with hidef
      obtain ⟨hi1, him, hTi, hTmin⟩ := hspec
      have hine : i ≠ m := by omega
      rw [if_neg hine]
      set b := modPow c (2 ^ (m - i - 1).toNat) (P : Int) with hbdef
      set c2 := jjmod (b * b) (P : Int) with hc2def
      -- the element t ^ 2 ^ (i - 1) squares to 1 but is not 1, so it is -1
      have hTpred : T ^ (2 ^ (i.toNat - 1)) = -1 := by
        have hsq : T ^ (2 ^ (i.toNat - 1)) * T ^ (2 ^ (i.toNat - 1)) = 1 := by
          rw [← pow_add]
          have hexp : 2 ^ (i.toNat - 1) + 2 ^ (i.toNat - 1) = 2 ^ i.toNat := by
            obtain ⟨a, ha⟩ : ∃ a, i.toNat = a + 1 := ⟨i.toNat - 1, by omega⟩
            rw [ha, Nat.add_sub_cancel, pow_succ]
            omega
          rw [hexp]
          exact hTi
        rcases mul_self_eq_one_iff.mp hsq with h | h
        · exact absurd h (hTmin (i.toNat - 1) (by omega))
        · exact h
      -- cast of b
      have hcastb : ((b : Int) : ZMod P) = ((c : Int) : ZMod P) ^ (2 ^ (m - i - 1).toNat) := by
        rw [hbdef, intCast_modPow (by positivity)]
        congr 1
        have h1 : ((2 : Int) ^ (m - i - 1).toNat) = ((2 ^ (m - i - 1).toNat : Nat) : Int) := by
          push_cast
          rfl
        rw [h1, Int.toNat_ofNat]
      -- invariant A2 for the next iteration
      have hexpsum : 2 ^ (m - i - 1).toNat * 2 * 2 ^ (i.toNat - 1) = 2 ^ (m.toNat - 1) := by
        have h1 : (m - i - 1).toNat + 1 + (i.toNat - 1) = m.toNat - 1 := by omega
        calc 2 ^ (m - i - 1).toNat * 2 * 2 ^ (i.toNat - 1)
            = 2 ^ ((m - i - 1).toNat + 1 + (i.toNat - 1)) := by
              rw [pow_add, pow_add, pow_one]
          _ = 2 ^ (m.toNat - 1) := by rw [h1]
      have hA2' : ((c2 : Int) : ZMod P) ^ (2 ^ (i.toNat - 1)) = -1 := by
        rw [hc2def, intCast_jjmod]
        push_cast
        rw [hcastb, ← pow_add]
        have h2 : (2 : Nat) ^ (m - i - 1).toNat + 2 ^ (m - i - 1).toNat
            = 2 ^ (m - i - 1).toNat * 2 := by ring
        rw [h2, ← pow_mul, hexpsum]
        exact hA2
      have hA1' : ((jjmod (t * c2) (P : Int) : Int) : ZMod P) ^ (2 ^ (i.toNat - 1)) = 1 := by
        rw [intCast_jjmod]
        push_cast
        rw [mul_pow, hTpred]
        rw [hA2']
        ring
      obtain ⟨x, hx⟩ := ih i c2 (jjmod (t * c2) (P : Int)) (jjmod (r * b) (P : Int))
        hi1 (by omega) (jjmod_nonneg (by omega)) (jjmod_lt (by omega)) hA1' hA2'
      exact ⟨x, hx⟩

theorem modSqrt_complete {P : Nat} [Fact P.Prime] (hP : 1 < P) (hodd : P % 2 = 1)
    {n : Int} (hn0 : 0 ≤ n) (hnp : n < (P : Int))
    (hsq : IsSquare ((n : Int) : ZMod P)) :
    ∃ x, modSqrt n (P : Int) = some x := by
  haveI : Fact (1 < P) := ⟨hP⟩
  haveI : NeZero P := ⟨by omega⟩
  by_cases hn : n = 0
  · exact ⟨0, by unfold modSqrt; rw [if_pos hn]⟩
  have hNne : ((n : Int) : ZMod P) ≠ 0 := by
    intro habs
    rw [ZMod.intCast_zmod_eq_zero_iff_dvd] at habs
    have := Int.le_of_dvd (by omega) habs
    omega
  have hEuler : ((n : Int) : ZMod P) ^ (P / 2) = 1 :=
    (ZMod.euler_criterion P hNne).mp hsq
  have htd2 : Int.tdiv ((P : Int) - 1) 2 = ((P : Int) - 1) / 2 :=
    Int.tdiv_eq_ediv (by omega) (by omega)
  have hexp2 : (Int.tdiv ((P : Int) - 1) 2).toNat = P / 2 := by
    rw [htd2]
    omega
  have hlegv : modPow n (Int.tdiv ((P : Int) - 1) 2) (P : Int) = 1 := by
    have hrange := modPow_range (b := n) (e := Int.tdiv ((P : Int) - 1) 2)
      (m := (P : Int)) (by exact_mod_cast hP) hn0
    refine intCast_zmod_inj hrange.1 hrange.2 (by omega) (by exact_mod_cast hP) ?_
    rw [intCast_modPow (by rw [htd2]; omega), hexp2, hEuler]
    push_cast
    rfl
  by_cases h34 : jjmod (P : Int) 4 = 3
  · refine ⟨modPow n (Int.tdiv ((P : Int) + 1) 4) (P : Int), ?_⟩
    unfold modSqrt
    rw [if_neg hn, if_neg (by rw [hlegv]; simp), if_pos h34]
  -- the general Tonelli–Shanks branch
  set qs := findQS (((P : Int) - 1).natAbs + 1) ((P : Int) - 1) 0 with hqs
  have hodd' := findQS_spec (((P : Int) - 1).natAbs + 1) ((P : Int) - 1) 0
    (by omega) (by omega)
  rw [← hqs] at hodd'
  obtain ⟨hQpos, hQodd⟩ := hodd'
  obtain ⟨k, hk1, hk2⟩ := findQS_inv (((P : Int) - 1).natAbs + 1) ((P : Int) - 1) 0
    (by omega) (by omega)
  rw [← hqs] at hk1 hk2
  set QN := qs.1.toNat with hQN
  have hQcast : (QN : Int) = qs.1 := Int.toNat_of_nonneg (by omega)
  have hQ2k : QN * 2 ^ k = P - 1 := by
    have hc : ((QN * 2 ^ k : Nat) : Int) = ((P - 1 : Nat) : Int) := by
      push_cast [hQcast]
      omega
    exact_mod_cast hc
  have hkpos : 1 ≤ k := by
    by_contra hk0
    have hk00 : k = 0 := by omega
    rw [hk00, pow_zero, mul_one] at hQ2k
    have h2 : (2 : Int) ∣ qs.1 := by
      rw [← hQcast]
      omega
    exact hQodd h2
  have hQodd' : QN % 2 = 1 := by
    rcases Nat.even_or_odd QN with he | ho
    · exfalso
      apply hQodd
      rw [← hQcast]
      obtain ⟨u, hu⟩ := he
      exact ⟨(u : Int), by omega⟩
    · omega
  -- product identity for the exponent P / 2
  have hM : QN * 2 ^ (k - 1) = P / 2 := by
    have h2k : (2 : Nat) ^ k = 2 ^ (k - 1) * 2 := by
      obtain ⟨a, ha⟩ : ∃ a, k = a + 1 := ⟨k - 1, by omega⟩
      rw [ha, Nat.add_sub_cancel, pow_succ]
    rw [h2k, ← mul_assoc] at hQ2k
    omega
  -- non-residue witness for the z-search
  have hchar : ringChar (ZMod P) ≠ 2 := by
    rw [ZMod.ringChar_zmod_n]
    omega
  obtain ⟨a, ha⟩ := FiniteField.exists_nonsquare (F := ZMod P) hchar
  have hane : a ≠ 0 := fun h => ha (h ▸ ⟨0, by ring⟩)
  have ha1 : a ≠ 1 := fun h => ha (h ▸ ⟨1, by ring⟩)
  have haP : a ^ (P / 2) = -1 := by
    rcases ZMod.pow_div_two_eq_neg_one_or_one P hane with h | h
    · exact absurd ((ZMod.euler_criterion P hane).mpr h) ha
    · exact h
  set w : Int := (a.val : Int) with hw
  have hwP : w < (P : Int) := by
    have := ZMod.val_lt a
    omega
  have hval : ((a.val : Nat) : ZMod P) = a := by
    rw [ZMod.natCast_val, ZMod.cast_id]
  have hv0 : a.val ≠ 0 := fun h => hane (by rw [← hval, h]; simp)
  have hv1 : a.val ≠ 1 := fun h => ha1 (by rw [← hval, h]; simp)
  have hw2 : 2 ≤ w := by omega
  have hwstop : modPow w (Int.tdiv ((P : Int) - 1) 2) (P : Int) = (P : Int) - 1 := by
    have hrange := modPow_range (b := w) (e := Int.tdiv ((P : Int) - 1) 2)
      (m := (P : Int)) (by exact_mod_cast hP) (by omega)
    refine intCast_zmod_inj hrange.1 hrange.2 (by omega) (by omega) ?_
    rw [intCast_modPow (by rw [htd2]; omega), hexp2]
    have hcw : ((w : Int) : ZMod P) = a := by
      rw [hw]
      push_cast
      exact_mod_cast hval
    rw [hcw, haP, cast_p_sub_one P]
  obtain ⟨z, hz⟩ := findZ_some w hwstop ((P : Int).natAbs + 1) 2 hw2 (by omega)
  have hzstop := findZ_stop ((P : Int).natAbs + 1) 2 z hz
  -- initial invariants for the main loop
  have hkqs : qs.2 = (k : Int) := by omega
  have hkqs' : qs.2.toNat = k := by omega
  have hA1 : ((modPow n qs.1 (P : Int) : Int) : ZMod P) ^ (2 ^ (qs.2.toNat - 1)) = 1 := by
    rw [intCast_modPow (by omega), ← hQcast, Int.toNat_ofNat, ← pow_mul, hkqs', hM]
    exact hEuler
  have hA2 : ((modPow z qs.1 (P : Int) : Int) : ZMod P) ^ (2 ^ (qs.2.toNat - 1)) = -1 := by
    rw [intCast_modPow (by omega), ← hQcast, Int.toNat_ofNat, ← pow_mul, hkqs', hM]
    have hzc : ((z : Int) : ZMod P) ^ (P / 2) = -1 := by
      have hc := congrArg (fun v : Int => ((v : Int) : ZMod P)) hzstop
      simp only at hc
      rw [intCast_modPow (by rw [htd2]; omega), hexp2, cast_p_sub_one P] at hc
      exact hc
    exact hzc
  have htrange := modPow_range (b := n) (e := qs.1) (m := (P : Int))
    (by exact_mod_cast hP) hn0
  obtain ⟨x, hx⟩ := tsLoop_some hP (qs.2.natAbs + 1) qs.2 (modPow z qs.1 (P : Int))
    (modPow n qs.1 (P : Int)) (modPow n (Int.tdiv (qs.1 + 1) 2) (P : Int))
    (by omega) (by omega) htrange.1 htrange.2 hA1 hA2
  refine ⟨x, ?_⟩
  unfold modSqrt
  rw [if_neg hn, if_neg (by rw [hlegv]; simp), if_neg h34]
  simp only
  rw [← hqs, hz]
  exact hx

/-! ## `decompressPoint` from `src/crypto/sapling.ts` -/

/-- Affine Jubjub point (`JubjubPoint` interface in `src/crypto/sapling.ts`). -/
structure JubjubPoint where
  x : Int
  y : Int
deriving DecidableEq, Repr

/-- The little-endian read loop `y += BigInt(bytes[i]) << BigInt(i * 8)`. -/
def readLE : List Nat → Int
  | [] => 0
  | b :: rest => (b : Int) + 256 * readLE rest

/-- `signBit = (bytes[31] & 0x80) !== 0` from `decompressPoint`. -/
def signBitOf (bytes : List Nat) : Bool :=
  (bytes.getD 31 0) &&& 0x80 != 0

/-- `bytes[31] &= 0x7f` from `decompressPoint`. -/
def clearTop (bytes : List Nat) : List Nat :=
  bytes.set 31 ((bytes.getD 31 0) &&& 0x7f)

/-- The y-coordinate read by `decompressPoint` (low 255 bits, little-endian). -/
def yOf (bytes : List Nat) : Int := readLE (clearTop bytes)

/-- `y2 = mod(y * y, FR_MODULUS)` from `decompressPoint`. -/
def y2Of (bytes : List Nat) : Int := jjmod (yOf bytes * yOf bytes) FR_MODULUS

/-- `numerator = mod(y2 - 1n, FR_MODULUS)` from `decompressPoint`. -/
def numOf (bytes : List Nat) : Int := jjmod (y2Of bytes - 1) FR_MODULUS

/-- `denominator = mod(JUBJUB_D * y2 - JUBJUB_A, FR_MODULUS)` from
`decompressPoint`. -/
def denOf (bytes : List Nat) : Int :=
  jjmod (JUBJUB_D * y2Of bytes - JUBJUB_A) FR_MODULUS

/-- `x2 = mod(numerator * modInverse(denominator, FR_MODULUS), FR_MODULUS)`
from `decompressPoint`. -/
def x2Of (bytes : List Nat) : Int :=
  jjmod (numOf bytes * modInverse (denOf bytes) FR_MODULUS) FR_MODULUS

/-- `decompressPoint(compressed)` from `src/crypto/sapling.ts`.  `x & 1n`
on the nonnegative square root is `x % 2`. -/
def decompressPoint (compressed : List Nat) : Option JubjubPoint :=
  if compressed.length ≠ 32 then none
  else if yOf compressed ≥ FR_MODULUS then none
  else if denOf compressed = 0 then none
  else
    match modSqrt (x2Of compressed) FR_MODULUS with
    | none => none
    | some x =>
      if (x % 2 == 1) ≠ signBitOf compressed then
        some { x := jjmod (-x) FR_MODULUS, y := yOf compressed }
      else
        some { x := x, y := yOf compressed }

/-- The twisted Edwards curve equation `a*x^2 + y^2 = 1 + d*x^2*y^2 mod p`,
with the code's constants. -/
def onCurve (pt : JubjubPoint) : Prop :=
  jjmod (JUBJUB_A * pt.x * pt.x + pt.y * pt.y) FR_MODULUS
    = jjmod (1 + JUBJUB_D * pt.x * pt.x * pt.y * pt.y) FR_MODULUS

theorem FR_pos : (0 : Int) < FR_MODULUS := by decide

theorem FR_gt_one : (1 : Int) < FR_MODULUS := by decide

theorem FR_odd : FR_MODULUS % 2 = 1 := by decide

theorem JUBJUB_A_eq : JUBJUB_A = (FRp : Int) - 1 := by decide

/-- Any `X` whose square is congruent to the solved `x2` value lies on the
curve together with the read y-coordinate. -/
theorem onCurve_of_sq (bytes : List Nat) (hden : denOf bytes ≠ 0) (X : Int)
    (hXmod : Int.ModEq FR_MODULUS (X * X) (x2Of bytes)) :
    onCurve { x := X, y := yOf bytes } := by
  unfold onCurve
  simp only
  set Y := yOf bytes with hY
  rw [jjmod_eq_emod FR_pos, jjmod_eq_emod FR_pos]
  show Int.ModEq FR_MODULUS (JUBJUB_A * X * X + Y * Y) (1 + JUBJUB_D * X * X * Y * Y)
  rw [FR_MODULUS_eq_cast]
  apply (ZMod.intCast_eq_intCast_iff _ _ (FRp)).mp
  push_cast
  set Xc : ZMod FRp := ((X : Int) : ZMod FRp) with hXc
  set Yc : ZMod FRp := ((Y : Int) : ZMod FRp) with hYc
  set Dc : ZMod FRp := ((JUBJUB_D : Int) : ZMod FRp) with hDc
  have hA : ((JUBJUB_A : Int) : ZMod FRp) = -1 := by
    rw [JUBJUB_A_eq]
    exact cast_p_sub_one FRp
  rw [hA]
  -- cast versions of the intermediate values
  have hY2 : ((y2Of bytes : Int) : ZMod FRp) = Yc * Yc := by
    rw [y2Of, FR_MODULUS_eq_cast, intCast_jjmod]
    push_cast
    rw [← hYc]
  have hNum : ((numOf bytes : Int) : ZMod FRp) = Yc * Yc - 1 := by
    rw [numOf, FR_MODULUS_eq_cast, intCast_jjmod]
    push_cast
    rw [hY2]
  have hDen : ((denOf bytes : Int) : ZMod FRp) = Dc * (Yc * Yc) + 1 := by
    rw [denOf, FR_MODULUS_eq_cast, intCast_jjmod]
    push_cast
    rw [hY2, hA, ← hDc]
    ring
  have hden_pos : 0 < denOf bytes := by
    have := jjmod_nonneg (n := JUBJUB_D * y2Of bytes - JUBJUB_A) FR_pos
    have h0 : denOf bytes = jjmod (JUBJUB_D * y2Of bytes - JUBJUB_A) FR_MODULUS := rfl
    omega
  have hden_lt : denOf bytes < (FRp : Int) := by
    have hlt := jjmod_lt (n := JUBJUB_D * y2Of bytes - JUBJUB_A) FR_pos
    have h0 : denOf bytes = jjmod (JUBJUB_D * y2Of bytes - JUBJUB_A) FR_MODULUS := rfl
    rw [← h0, FR_MODULUS_eq_cast] at hlt
    exact hlt
  have hInv : ((modInverse (denOf bytes) FR_MODULUS : Int) : ZMod FRp)
      * ((denOf bytes : Int) : ZMod FRp) = 1 := by
    have h1 := modInverse_modeq FRp_prime hden_pos hden_lt
    have h2 := (ZMod.intCast_eq_intCast_iff _ _ _).mpr h1
    push_cast at h2
    rw [FR_MODULUS_eq_cast]
    exact h2
  have hx2c : ((x2Of bytes : Int) : ZMod FRp)
      = (Yc * Yc - 1) * ((modInverse (denOf bytes) FR_MODULUS : Int) : ZMod FRp) := by
    rw [x2Of, FR_MODULUS_eq_cast, intCast_jjmod]
    push_cast
    rw [hNum, ← FR_MODULUS_eq_cast]
  have hXX : Xc * Xc = ((x2Of bytes : Int) : ZMod FRp) := by
    rw [FR_MODULUS_eq_cast] at hXmod
    have h2 := (ZMod.intCast_eq_intCast_iff _ _ _).mpr hXmod
    push_cast at h2
    rw [← hXc] at h2
    exact h2
  have hKey : Xc * Xc * (Dc * (Yc * Yc) + 1) = Yc * Yc - 1 := by
    calc Xc * Xc * (Dc * (Yc * Yc) + 1)
        = (Yc * Yc - 1) * ((modInverse (denOf bytes) FR_MODULUS : Int) : ZMod FRp)
            * ((denOf bytes : Int) : ZMod FRp) := by rw [hXX, hx2c, ← hDen]
      _ = (Yc * Yc - 1) * (((modInverse (denOf bytes) FR_MODULUS : Int) : ZMod FRp)
            * ((denOf bytes : Int) : ZMod FRp)) := by ring
      _ = Yc * Yc - 1 := by rw [hInv, mul_one]
  linear_combination (-1 : ZMod FRp) * hKey

/-- C3 (amended): `decompressPoint` on a 32-byte input returns invalid when
`y ≥ p`, when the denominator is zero, or when the solved `x²` is not a
quadratic residue; when `x²` is a residue it returns a point; any returned
point carries the decoded `y`, satisfies the twisted Edwards curve equation,
and — whenever its x-coordinate is nonzero — has low-bit parity equal to the
encoded sign bit (the root is negated when the parities differ; for `x = 0`
negation cannot change the parity, so the sign bit is ignored there). -/
theorem decompressPoint_spec (bytes : List Nat) (h32 : bytes.length = 32) :
    (FR_MODULUS ≤ yOf bytes → decompressPoint bytes = none) ∧
    (yOf bytes < FR_MODULUS → denOf bytes = 0 → decompressPoint bytes = none) ∧
    (yOf bytes < FR_MODULUS → denOf bytes ≠ 0 →
      ¬ IsSquare ((x2Of bytes : Int) : ZMod FRp) → decompressPoint bytes = none) ∧
    (yOf bytes < FR_MODULUS → denOf bytes ≠ 0 →
      IsSquare ((x2Of bytes : Int) : ZMod FRp) →
      ∃ pt, decompressPoint bytes = some pt) ∧
    (∀ pt, decompressPoint bytes = some pt →
      pt.y = yOf bytes ∧ (pt.x ≠ 0 → (pt.x % 2 = 1 ↔ signBitOf bytes = true)) ∧
      onCurve pt) := by
  have hlen : ¬ (bytes.length ≠ 32) := by omega
  have hx2nn : 0 ≤ x2Of bytes := jjmod_nonneg FR_pos
  have hx2lt : x2Of bytes < FR_MODULUS := jjmod_lt FR_pos
  refine ⟨?_, ?_, ?_, ?_, ?_⟩
  · intro hy
    unfold decompressPoint
    rw [if_neg hlen, if_pos hy]
  · intro hy hden
    unfold decompressPoint
    rw [if_neg hlen, if_neg (not_le.mpr hy), if_pos hden]
  · intro hy hden hnsq
    rcases hms : modSqrt (x2Of bytes) FR_MODULUS with _ | x
    · unfold decompressPoint
      rw [if_neg hlen, if_neg (not_le.mpr hy), if_neg hden, hms]
    · exfalso
      apply hnsq
      have hsound := modSqrt_sound FR_gt_one hms
      rw [FR_MODULUS_eq_cast] at hsound
      have h2 := (ZMod.intCast_eq_intCast_iff _ _ _).mpr hsound
      push_cast at h2
      exact ⟨((x : Int) : ZMod FRp), h2.symm⟩
  · intro hy hden hsq
    have h1 : 1 < FRp := by decide
    have hodd : FRp % 2 = 1 := by decide
    obtain ⟨x, hx⟩ := modSqrt_complete h1 hodd hx2nn
      (by rw [← FR_MODULUS_eq_cast]; exact hx2lt) hsq
    rw [← FR_MODULUS_eq_cast] at hx
    by_cases hpar : ((x % 2 == 1) ≠ signBitOf bytes)
    · refine ⟨{ x := jjmod (-x) FR_MODULUS, y := yOf bytes }, ?_⟩
      unfold decompressPoint
      rw [if_neg hlen, if_neg (not_le.mpr hy), if_neg hden, hx]
      dsimp only
      rw [if_pos hpar]
    · refine ⟨{ x := x, y := yOf bytes }, ?_⟩
      unfold decompressPoint
      rw [if_neg hlen, if_neg (not_le.mpr hy), if_neg hden, hx]
      dsimp only
      rw [if_neg hpar]
  · intro pt hpt
    unfold decompressPoint at hpt
    rw [if_neg hlen] at hpt
    by_cases hy : FR_MODULUS ≤ yOf bytes
    · rw [if_pos hy] at hpt
      cases hpt
    rw [if_neg hy] at hpt
    by_cases hden : denOf bytes = 0
    · rw [if_pos hden] at hpt
      cases hpt
    rw [if_neg hden] at hpt
    rcases hms : modSqrt (x2Of bytes) FR_MODULUS with _ | x
    · rw [hms] at hpt
      cases hpt
    rw [hms] at hpt
    dsimp only at hpt
    have hxr := modSqrt_range FR_gt_one hx2nn hms
    have hsound := modSqrt_sound FR_gt_one hms
    by_cases hpar : ((x % 2 == 1) ≠ signBitOf bytes)
    · rw [if_pos hpar] at hpt
      have hpt' : { x := jjmod (-x) FR_MODULUS, y := yOf bytes : JubjubPoint } = pt :=
        Option.some.inj hpt
      rw [← hpt']
      refine ⟨rfl, ?_, ?_⟩
      · intro hne
        simp only at hne ⊢
        have hemod : jjmod (-x) FR_MODULUS = (-x) % FR_MODULUS := jjmod_eq_emod FR_pos
        have hx0 : x ≠ 0 := by
          intro h0
          apply hne
          rw [h0]
          decide
        have hxpos : 0 < x := by omega
        have hval : jjmod (-x) FR_MODULUS = FR_MODULUS - x := by
          rw [hemod]
          calc (-x) % FR_MODULUS
              = (-x + 1 * FR_MODULUS) % FR_MODULUS := (Int.add_mul_emod_self).symm
            _ = (FR_MODULUS - x) % FR_MODULUS := by ring_nf
            _ = FR_MODULUS - x := Int.emod_eq_of_lt (by omega) (by omega)
        have hxodd : ¬ (x % 2 = 1) ↔ signBitOf bytes = true := by
          cases hsb : signBitOf bytes with
          | false =>
            rw [hsb] at hpar
            simp only [ne_eq, Bool.not_eq_false] at hpar
            have : x % 2 = 1 := by
              have := beq_iff_eq.mp hpar
              exact this
            simp [this]
          | true =>
            rw [hsb] at hpar
            have : (x % 2 == 1) = false := by
              by_contra hb
              have hb' : (x % 2 == 1) = true := by
                cases h : (x % 2 == 1) <;> simp_all
              exact hpar (by rw [hb'])
            have : ¬ (x % 2 = 1) := by
              intro habs
              rw [beq_iff_eq.mpr habs] at this
              cases this
            simp [this]
        have hFRodd := FR_odd
        rw [hval, ← hxodd]
        omega
      · exact onCurve_of_sq bytes hden _ (by
          have h1 : Int.ModEq FR_MODULUS (jjmod (-x) FR_MODULUS * jjmod (-x) FR_MODULUS)
              ((-x) * (-x)) := jjmod_modeq.mul jjmod_modeq
          have h2 : (-x) * (-x) = x * x := by ring
          rw [h2] at h1
          exact h1.trans hsound)
    · rw [if_neg hpar] at hpt
      have hpt' : { x := x, y := yOf bytes : JubjubPoint } = pt := Option.some.inj hpt
      rw [← hpt']
      refine ⟨rfl, ?_, onCurve_of_sq bytes hden _ hsound⟩
      intro _
      simp only
      push_neg at hpar
      cases hsb : signBitOf bytes with
      | false =>
        rw [hsb] at hpar
        have : ¬ (x % 2 = 1) := by
          intro habs
          rw [beq_iff_eq.mpr habs] at hpar
          cases hpar
        simp [this]
      | true =>
        rw [hsb] at hpar
        have : x % 2 = 1 := beq_iff_eq.mp hpar
        simp [this]

/-- Input for the C3 counterexample: the encoding of `y = 1` with the sign
bit set (`bytes[0] = 1`, `bytes[31] = 0x80`). -/
def c3cexBytes : List Nat := [1] ++ List.replicate 30 0 ++ [0x80]

/-- C3 counterexample: on the 32-byte input encoding `y = 1` with sign bit 1,
`decompressPoint` returns the point `(0, 1)`, whose x-parity (even) does not
match the encoded sign bit, contradicting the claim that the returned root's
low-bit parity always equals the sign bit. -/
theorem decompressPoint_parity_cex :
    decompressPoint c3cexBytes = some { x := 0, y := 1 } ∧
    signBitOf c3cexBytes = true ∧ ¬ ((0 : Int) % 2 = 1) := by
  refine ⟨?_, by decide, by decide⟩
  set_option maxRecDepth 20000 in decide

/-- C3 witness: the amended theorem applied at the concrete input encoding
`y = 1` with sign bit 0. -/
theorem decompressPoint_spec_witness :
    (FR_MODULUS ≤ yOf ([1] ++ List.replicate 31 0) →
      decompressPoint ([1] ++ List.replicate 31 0) = none) ∧
    (yOf ([1] ++ List.replicate 31 0) < FR_MODULUS →
      denOf ([1] ++ List.replicate 31 0) = 0 →
      decompressPoint ([1] ++ List.replicate 31 0) = none) ∧
    (yOf ([1] ++ List.replicate 31 0) < FR_MODULUS →
      denOf ([1] ++ List.replicate 31 0) ≠ 0 →
      ¬ IsSquare ((x2Of ([1] ++ List.replicate 31 0) : Int) : ZMod FRp) →
      decompressPoint ([1] ++ List.replicate 31 0) = none) ∧
    (yOf ([1] ++ List.replicate 31 0) < FR_MODULUS →
      denOf ([1] ++ List.replicate 31 0) ≠ 0 →
      IsSquare ((x2Of ([1] ++ List.replicate 31 0) : Int) : ZMod FRp) →
      ∃ pt, decompressPoint ([1] ++ List.replicate 31 0) = some pt) ∧
    (∀ pt, decompressPoint ([1] ++ List.replicate 31 0) = some pt →
      pt.y = yOf ([1] ++ List.replicate 31 0) ∧
      (pt.x ≠ 0 → (pt.x % 2 = 1 ↔ signBitOf ([1] ++ List.replicate 31 0) = true)) ∧
      onCurve pt) :=
  decompressPoint_spec ([1] ++ List.replicate 31 0) (by decide)

/-! ## Curve operations used by trial decryption (`src/crypto/sapling.ts`) -/

/-- `pointAdd(p1, p2)` from `src/crypto/sapling.ts` (unified twisted Edwards
addition). -/
def pointAdd (p1 p2 : JubjubPoint) : JubjubPoint :=
  let x1x2 := jjmod (p1.x * p2.x) FR_MODULUS
  let y1y2 := jjmod (p1.y * p2.y) FR_MODULUS
  let dx1x2y1y2 := jjmod (JUBJUB_D * x1x2 * y1y2) FR_MODULUS
  let x3num := jjmod (p1.x * p2.y + p1.y * p2.x) FR_MODULUS
  let x3den := jjmod (1 + dx1x2y1y2) FR_MODULUS
  let y3num := jjmod (y1y2 - JUBJUB_A * x1x2) FR_MODULUS
  let y3den := jjmod (1 - dx1x2y1y2) FR_MODULUS
  { x := jjmod (x3num * modInverse x3den FR_MODULUS) FR_MODULUS,
    y := jjmod (y3num * modInverse y3den FR_MODULUS) FR_MODULUS }

/-- `pointDouble(p)` from `src/crypto/sapling.ts`: addition with itself. -/
def pointDouble (p : JubjubPoint) : JubjubPoint := pointAdd p p

/-- The double-and-add loop of `scalarMult`, with fuel (`k` halves each
iteration; `k & 1n` on the nonnegative scalar is `k % 2`, `k >>= 1n` is
division by two). -/
def scalarMultGo : Nat → Int → JubjubPoint → JubjubPoint → JubjubPoint
  | 0, _, result, _ => result
  | fuel + 1, k, result, current =>
    if k > 0 then
      scalarMultGo fuel (k / 2)
        (if k % 2 == 1 then pointAdd result current else result)
        (pointDouble current)
    else result

/-- `scalarMult(scalar, point)` from `src/crypto/sapling.ts`: reads the
32-byte scalar little-endian, reduces it modulo the curve order, then runs
double-and-add from the identity `(0, 1)`.  Reading index `i` of a scalar
shorter than 32 bytes is `BigInt(undefined)`, which throws — `none` here,
caught into `null` by both callers. -/
def scalarMult (scalar : List Nat) (point : JubjubPoint) : Option JubjubPoint :=
  if scalar.length < 32 then none
  else
    let k := jjmod (readLE (scalar.take 32)) JUBJUB_ORDER
    some (scalarMultGo (k.natAbs + 1) k { x := 0, y := 1 } point)

/-- The write loop of `encodePointX`: `buf[i] = Number(x & 0xffn); x >>= 8n`
for 32 iterations (the x-coordinate is nonnegative, so `& 0xff` is `% 256`
and `>> 8` is division by 256). -/
def encodeLE : Nat → Int → List Nat
  | 0, _ => []
  | n + 1, x => (x % 256).toNat :: encodeLE n (x / 256)

/-- `encodePointX(point)` from `src/crypto/sapling.ts`. -/
def encodePointX (point : JubjubPoint) : List Nat := encodeLE 32 point.x

/-! ## Key derivation and note decryption (`src/crypto/sapling.ts`) -/

/-- External cryptographic primitives used by the engine (`@noble/hashes`
blake2b, node's ChaCha20 and `@noble/ciphers` ChaCha20-Poly1305).  The
engine's control flow is verified for every implementation of these: the
stream cipher maps key, nonce and data to the XORed bytes, and the
authenticated cipher returns `none` exactly when the library throws an
authentication(or input)-error, which the callers catch. -/
structure CryptoPrims where
  blake2bKdf : List Nat → List Nat
  chacha20Xor : List Nat → List Nat → List Nat → List Nat
  chachaPoly : List Nat → List Nat → List Nat → Option (List Nat)

/-- `kdfSapling(sharedSecret, ephemeralKey)` from `src/crypto/sapling.ts`:
the Blake2b-256 digest of the concatenation (with the fixed
`Zcash_SaplingKDF` personalization, part of the abstracted primitive). -/
def kdfSapling (C : CryptoPrims) (sharedSecret ephemeralKey : List Nat) : List Nat :=
  C.blake2bKdf (sharedSecret ++ ephemeralKey)

/-- `SaplingOutput` from `src/crypto/sapling.ts`. -/
structure SaplingOutput where
  cmu : List Nat
  ephemeralKey : List Nat
  ciphertext : List Nat
deriving DecidableEq, Repr

/-- The bytes of an ASCII string, for the memo placeholder text. -/
def strBytes (s : String) : List Nat := s.data.map Char.toNat

/-- The fixed placeholder `memoText` used when only compact bytes exist. -/
def memoPlaceholder : List Nat :=
  strBytes "[Memo not available in compact block - need full transaction]"

/-- `DecryptedNote` from `src/crypto/sapling.ts`; strings are embedded as
their byte sequences. -/
structure DecryptedNote where
  diversifier : List Nat
  value : Int
  rcm : List Nat
  memo : List Nat
  memoText : List Nat
deriving DecidableEq, Repr

/-- `Buffer.subarray(a, b)`: the elements with indices in `[a, min b len)`. -/
def subarray (l : List Nat) (a b : Nat) : List Nat := (l.take b).drop a

/-- Length of the prefix before the first zero byte (the whole list when no
zero occurs), for `decodeMemo`'s scan loop. -/
def zeroPrefixLen : List Nat → Nat
  | [] => 0
  | b :: rest => if b = 0 then 0 else zeroPrefixLen rest + 1

/-- ASCII whitespace recognised by the embedded `trim`. -/
def isWs (b : Nat) : Bool :=
  b == 9 || b == 10 || b == 11 || b == 12 || b == 13 || b == 32

/-- Byte-level model of `String.prototype.trim`: drop leading and trailing
whitespace.  (JS trims a few multi-byte Unicode spaces too; the same
function is used on both sides of the round-trip property.) -/
def trimBytes (l : List Nat) : List Nat :=
  ((l.dropWhile isWs).reverse.dropWhile isWs).reverse

/-- `decodeMemo(memo)` from `src/crypto/sapling.ts`: skip a `0xF6` text
marker, scan to the first zero byte (or the end), decode as UTF-8 (identity
on the byte content) and trim.  `memo[0]` on an empty buffer is `undefined`,
which is not `0xF6`, so `getD 0 0` is faithful. -/
def decodeMemo (memo : List Nat) : List Nat :=
  let startIdx := if memo.getD 0 0 = 0xf6 then 1 else 0
  let rest := memo.drop startIdx
  trimBytes (rest.take (zeroPrefixLen rest))

/-- `parseNotePlaintext(plaintext)` from `src/crypto/sapling.ts`. -/
def parseNotePlaintext (plaintext : List Nat) : Option DecryptedNote :=
  if plaintext.length < 52 then none
  else
    let diversifier := subarray plaintext 1 12
    let value := readLE (subarray plaintext 12 20)
    let rcm := if plaintext.length > 20 + 32 then subarray plaintext 20 52
      else List.replicate 32 0
    if plaintext.length ≥ 52 + 512 then
      some { diversifier := diversifier, value := value, rcm := rcm,
             memo := subarray plaintext 52 564,
             memoText := decodeMemo (subarray plaintext 52 564) }
    else
      some { diversifier := diversifier, value := value, rcm := rcm,
             memo := List.replicate 512 0,
             memoText := memoPlaceholder }

/-- `decryptCompactCiphertext(key, ciphertext)` from `src/crypto/sapling.ts`:
raw ChaCha20 stream decryption with a zero nonce, then the lead-byte check
`decrypted[0] !== 0x01 && decrypted[0] !== 0x02` (an empty result's
`decrypted[0]` is `undefined`, failing both comparisons). -/
def decryptCompactCiphertext (C : CryptoPrims) (key ciphertext : List Nat) :
    Option (List Nat) :=
  let nonce := List.replicate 12 0
  let decrypted := C.chacha20Xor key nonce ciphertext
  match decrypted with
  | [] => none
  | b :: rest => if b ≠ 0x01 ∧ b ≠ 0x02 then none else some (b :: rest)

/-- `tryDecryptNote(output, ivk)` from `src/crypto/sapling.ts`.  The unused
`chacha20poly1305(key, nonce)` construction in the source binds a cipher
object that is never applied on this path and is omitted. -/
def tryDecryptNote (C : CryptoPrims) (output : SaplingOutput)
    (ivk : List Nat) : Option DecryptedNote :=
  match decompressPoint output.ephemeralKey with
  | none => none
  | some epk =>
    match scalarMult ivk epk with
    | none => none
    | some sharedPoint =>
      let sharedSecret := encodePointX sharedPoint
      let key := kdfSapling C sharedSecret output.ephemeralKey
      if output.ciphertext.length < 52 then none
      else
        match decryptCompactCiphertext C key output.ciphertext with
        | none => none
        | some decrypted => parseNotePlaintext decrypted

/-- `decryptFullNote(encCiphertext, ephemeralKey, ivk)` from
`src/crypto/sapling.ts`: size check, then authenticated
ChaCha20-Poly1305 decryption with a zero nonce (a library throw on
authentication failure is the `none` of the primitive, caught into `null`). -/
def decryptFullNote (C : CryptoPrims) (encCiphertext ephemeralKey ivk : List Nat) :
    Option DecryptedNote :=
  if encCiphertext.length ≠ 580 then none
  else
    match decompressPoint ephemeralKey with
    | none => none
    | some epk =>
      match scalarMult ivk epk with
      | none => none
      | some sharedPoint =>
        let sharedSecret := encodePointX sharedPoint
        let key := kdfSapling C sharedSecret ephemeralKey
        match C.chachaPoly key (List.replicate 12 0) encCiphertext with
        | none => none
        | some plaintext => parseNotePlaintext plaintext

/-- Modelled from the spec: the repository contains no memo encoder; this is
the reference "null-padded, text-marker-prefixed" encoding of the 512-byte
memo field described in the spec — the `0xF6` text marker, the UTF-8 bytes
of the string, and zero padding up to 512 bytes. -/
def encodeMemo (s : List Nat) : List Nat :=
  (0xf6 :: s) ++ List.replicate (512 - 1 - s.length) 0

/-- C4: the compact path is a single unauthenticated stream-cipher pass:
the decrypted bytes are exactly the cipher's XOR output, the result is
accepted iff the first decrypted byte is one of the two permitted note
versions 0x01 and 0x02 (returned unchanged, with no further validity
check), and any other first byte — or an empty output — yields null. -/
theorem decryptCompactCiphertext_spec (C : CryptoPrims) (key ct : List Nat) :
    (∀ b rest, C.chacha20Xor key (List.replicate 12 0) ct = b :: rest →
      decryptCompactCiphertext C key ct
        = if b = 1 ∨ b = 2 then some (b :: rest) else none) ∧
    (C.chacha20Xor key (List.replicate 12 0) ct = [] →
      decryptCompactCiphertext C key ct = none) := by
  constructor
  · intro b rest h
    simp only [decryptCompactCiphertext]
    rw [h]
    dsimp only
    by_cases hb : b = 1 ∨ b = 2
    · rw [if_pos hb, if_neg (by tauto)]
    · rw [if_neg hb, if_pos (by tauto)]
  · intro h
    simp only [decryptCompactCiphertext]
    rw [h]

/-- Identity-cipher primitives used to instantiate the decryption theorems
at concrete inputs. -/
def plainPrims : CryptoPrims where
  blake2bKdf := fun _ => List.replicate 32 0
  chacha20Xor := fun _ _ data => data
  chachaPoly := fun _ _ _ => none

/-- C4 witness: with an identity stream cipher, a ciphertext whose first
byte decrypts to 0x01 is accepted unchanged and one decrypting to 0x09 is
rejected. -/
theorem decryptCompactCiphertext_spec_witness :
    decryptCompactCiphertext plainPrims [] [1, 7, 7] = some [1, 7, 7] ∧
    decryptCompactCiphertext plainPrims [] [9, 7, 7] = none := by
  constructor
  · have h := (decryptCompactCiphertext_spec plainPrims [] [1, 7, 7]).1 1 [7, 7] rfl
    rw [if_pos (by omega)] at h
    exact h
  · have h := (decryptCompactCiphertext_spec plainPrims [] [9, 7, 7]).1 9 [7, 7] rfl
    rw [if_neg (by omega)] at h
    exact h

/-- C5: for a decrypted plaintext of at least 52 bytes the parser returns a
note with diversifier = the 11 bytes after the 1-byte lead field and value
= the following 8 bytes read little-endian; an exactly-52-byte (compact)
plaintext gets a 32-byte all-zero `rcm`, a 512-byte all-zero memo and the
fixed "memo not available, fetch full transaction" placeholder text, while
a full-length (564-byte) plaintext gets the actual randomness bytes and the
decoded memo. -/
theorem parseNotePlaintext_spec (plaintext : List Nat) (h : 52 ≤ plaintext.length) :
    ∃ note, parseNotePlaintext plaintext = some note ∧
      note.diversifier = subarray plaintext 1 12 ∧
      note.value = readLE (subarray plaintext 12 20) ∧
      (plaintext.length = 52 →
        note.rcm = List.replicate 32 0 ∧ note.memo = List.replicate 512 0 ∧
        note.memoText = memoPlaceholder) ∧
      (plaintext.length = 564 →
        note.rcm = subarray plaintext 20 52 ∧
        note.memo = subarray plaintext 52 564 ∧
        note.memoText = decodeMemo (subarray plaintext 52 564)) := by
  simp only [parseNotePlaintext]
  rw [if_neg (show ¬ plaintext.length < 52 by omega)]
  by_cases hm : plaintext.length ≥ 52 + 512
  · rw [if_pos hm, if_pos (show plaintext.length > 20 + 32 by omega)]
    refine ⟨_, rfl, rfl, rfl, ?_, ?_⟩
    · intro h52
      omega
    · intro _
      exact ⟨rfl, rfl, rfl⟩
  · rw [if_neg hm]
    by_cases hr : plaintext.length > 20 + 32
    · rw [if_pos hr]
      refine ⟨_, rfl, rfl, rfl, ?_, ?_⟩
      · intro h52
        omega
      · intro h564
        omega
    · rw [if_neg hr]
      refine ⟨_, rfl, rfl, rfl, ?_, ?_⟩
      · intro _
        exact ⟨rfl, rfl, rfl⟩
      · intro h564
        omega

/-- C5 witness: the parser theorem applied to a concrete 52-byte plaintext. -/
theorem parseNotePlaintext_spec_witness :
    ∃ note, parseNotePlaintext (List.replicate 52 3) = some note ∧
      note.diversifier = subarray (List.replicate 52 3) 1 12 ∧
      note.value = readLE (subarray (List.replicate 52 3) 12 20) ∧
      ((List.replicate 52 3 : List Nat).length = 52 →
        note.rcm = List.replicate 32 0 ∧ note.memo = List.replicate 512 0 ∧
        note.memoText = memoPlaceholder) ∧
      ((List.replicate 52 3 : List Nat).length = 564 →
        note.rcm = subarray (List.replicate 52 3) 20 52 ∧
        note.memo = subarray (List.replicate 52 3) 52 564 ∧
        note.memoText = decodeMemo (subarray (List.replicate 52 3) 52 564)) :=
  parseNotePlaintext_spec (List.replicate 52 3) (by decide)

theorem zeroPrefixLen_no_zero (s : List Nat) (hz : ∀ b ∈ s, b ≠ 0) :
    zeroPrefixLen s = s.length := by
  induction s with
  | nil => rfl
  | cons b rest ih =>
    rw [zeroPrefixLen, if_neg (hz b (by simp))]
    simp only [List.length_cons]
    rw [ih (fun x hx => hz x (by simp [hx]))]

theorem zeroPrefixLen_append_zero (s t : List Nat) (hz : ∀ b ∈ s, b ≠ 0) :
    zeroPrefixLen (s ++ 0 :: t) = s.length := by
  induction s with
  | nil => rfl
  | cons b rest ih =>
    rw [List.cons_append, zeroPrefixLen, if_neg (hz b (by simp))]
    simp only [List.length_cons]
    rw [ih (fun x hx => hz x (by simp [hx]))]

/-- C6 (amended): for every NUL-free byte string whose encoding fits in the
512-byte memo field (length at most 511 alongside the text marker),
decoding the reference null-padded, `0xF6`-prefixed encoding returns
exactly the trimmed string. -/
theorem decodeMemo_encodeMemo (s : List Nat) (hz : ∀ b ∈ s, b ≠ 0)
    (hlen : s.length ≤ 511) : decodeMemo (encodeMemo s) = trimBytes s := by
  have henc : encodeMemo s = 246 :: (s ++ List.replicate (512 - 1 - s.length) 0) := by
    simp [encodeMemo]
  rw [henc]
  simp only [decodeMemo]
  rw [if_pos (by rfl)]
  have hdrop : (246 :: (s ++ List.replicate (512 - 1 - s.length) 0)).drop 1
      = s ++ List.replicate (512 - 1 - s.length) 0 := rfl
  rw [hdrop]
  have hpref : zeroPrefixLen (s ++ List.replicate (512 - 1 - s.length) 0) = s.length := by
    rcases Nat.eq_zero_or_pos (512 - 1 - s.length) with h0 | hpos
    · rw [h0]
      simp only [List.replicate_zero, List.append_nil]
      exact zeroPrefixLen_no_zero s hz
    · obtain ⟨j, hj⟩ : ∃ j, 512 - 1 - s.length = j + 1 := ⟨512 - 1 - s.length - 1, by omega⟩
      rw [hj, List.replicate_succ]
      exact zeroPrefixLen_append_zero s _ hz
  rw [hpref, List.take_left]

/-- C6 counterexample: the interior-NUL string "a\0b" (bytes 97, 0, 98) is a
valid UTF-8 string fitting the field, but decoding its encoding stops at the
NUL and returns "a", not trim("a\0b"). -/
theorem decodeMemo_encodeMemo_cex :
    decodeMemo (encodeMemo [97, 0, 98]) ≠ trimBytes [97, 0, 98] := by decide

/-- C6 witness: the amended round-trip at the concrete string "  hi " with
surrounding whitespace (bytes 32, 104, 105, 32). -/
theorem decodeMemo_encodeMemo_witness :
    decodeMemo (encodeMemo [32, 104, 105, 32]) = trimBytes [32, 104, 105, 32] :=
  decodeMemo_encodeMemo [32, 104, 105, 32] (by decide) (by decide)

/-- C2: trial decryption and full decryption are total functions into an
option type — no failure mode escapes as an error — and each listed failure
mode yields null: ephemeral-key decompression failure, compact ciphertext
shorter than 52 bytes, a rejected compact lead byte (the stream decryption
returning null), a full ciphertext whose length is not 580 bytes, and an
authentication-tag failure of the authenticated cipher. -/
theorem tryDecryptNote_null_on_failure (C : CryptoPrims) (output : SaplingOutput)
    (ivk encCt ek : List Nat) :
    (decompressPoint output.ephemeralKey = none → tryDecryptNote C output ivk = none) ∧
    (output.ciphertext.length < 52 → tryDecryptNote C output ivk = none) ∧
    (∀ epk sharedPoint, decompressPoint output.ephemeralKey = some epk →
      scalarMult ivk epk = some sharedPoint →
      decryptCompactCiphertext C
        (kdfSapling C (encodePointX sharedPoint) output.ephemeralKey)
        output.ciphertext = none →
      tryDecryptNote C output ivk = none) ∧
    (decompressPoint ek = none → decryptFullNote C encCt ek ivk = none) ∧
    (encCt.length ≠ 580 → decryptFullNote C encCt ek ivk = none) ∧
    (∀ epk sharedPoint, decompressPoint ek = some epk →
      scalarMult ivk epk = some sharedPoint →
      C.chachaPoly (kdfSapling C (encodePointX sharedPoint) ek)
        (List.replicate 12 0) encCt = none →
      decryptFullNote C encCt ek ivk = none) := by
  refine ⟨?_, ?_, ?_, ?_, ?_, ?_⟩
  · intro h
    simp only [tryDecryptNote]
    rw [h]
  · intro h
    simp only [tryDecryptNote]
    rcases hd : decompressPoint output.ephemeralKey with _ | epk
    · rfl
    · dsimp only
      rcases hs : scalarMult ivk epk with _ | sp
      · rfl
      · dsimp only
        rw [if_pos h]
  · intro epk sharedPoint hepk hsp hdec
    simp only [tryDecryptNote]
    rw [hepk]
    dsimp only
    rw [hsp]
    dsimp only
    by_cases hlt : output.ciphertext.length < 52
    · rw [if_pos hlt]
    · rw [if_neg hlt, hdec]
  · intro h
    simp only [decryptFullNote]
    by_cases hlen : encCt.length ≠ 580
    · rw [if_pos hlen]
    · rw [if_neg hlen, h]
  · intro h
    simp only [decryptFullNote]
    rw [if_pos h]
  · intro epk sharedPoint hepk hsp hpoly
    simp only [decryptFullNote]
    by_cases hlen : encCt.length ≠ 580
    · rw [if_pos hlen]
    · rw [if_neg hlen, hepk]
      dsimp only
      rw [hsp]
      dsimp only
      rw [hpoly]

/-- A 32-byte ephemeral key whose decompression fails (its y-value exceeds
the field modulus). -/
def badEphemeralKey : List Nat := List.replicate 32 255

/-- C2 witness: the failure-mode theorem applied at concrete inputs — a
non-decompressible ephemeral key, an empty compact ciphertext, and an empty
full ciphertext. -/
theorem tryDecryptNote_null_on_failure_witness :
    tryDecryptNote plainPrims ⟨[], badEphemeralKey, List.replicate 52 0⟩ [] = none ∧
    tryDecryptNote plainPrims ⟨[], [], []⟩ [] = none ∧
    decryptFullNote plainPrims [] badEphemeralKey [] = none := by
  refine ⟨?_, ?_, ?_⟩
  · exact (tryDecryptNote_null_on_failure plainPrims _ [] [] badEphemeralKey).1
      (by decide)
  · exact (tryDecryptNote_null_on_failure plainPrims _ [] [] []).2.1 (by decide)
  · exact (tryDecryptNote_null_on_failure plainPrims ⟨[], [], []⟩ [] []
      badEphemeralKey).2.2.2.2.1 (by decide)

/-! ## Block-scan engine (`ZcashLightClient` in `src/unnamed/part_007`) -/

/-- `CompactOutput` from `src/types.ts`. -/
structure CompactOutput where
  cmu : List Nat
  epk : List Nat
  ciphertext : List Nat
deriving DecidableEq, Repr

/-- The fields of `CompactTx` from `src/types.ts` used by the scan loop. -/
structure CompactTx where
  hash : List Nat
  outputs : List CompactOutput
deriving DecidableEq, Repr

/-- The fields of `CompactBlock` from `src/types.ts` used by the scan loop. -/
structure CompactBlock where
  height : Int
  time : Int
  vtx : List CompactTx
deriving DecidableEq, Repr

/-- `ShieldedTransaction` from `src/types.ts` as produced by `scanBlocks`.
The txid is the transaction hash in reversed (display) byte order; the
source renders it as hex, which is presentation only.  The floating-point
`amountZec` mirror of `amountZatoshis` is outside the embedding.  The
timestamp is the source's `block.time * 1000` milliseconds value. -/
structure ShieldedTransaction where
  txid : List Nat
  blockHeight : Int
  timestamp : Int
  amountZatoshis : Int
  memo : List Nat
  processed : Bool
deriving DecidableEq, Repr

/-- The mutable fields of `ZcashLightClient` (`src/unnamed/part_007`):
`client` (modelled by whether it is non-null), `ivk`, `lastScannedHeight`
and `isConnected`. -/
structure ClientState where
  hasClient : Bool
  ivk : Option (List Nat)
  lastScannedHeight : Int
  isConnected : Bool
deriving DecidableEq, Repr

/-- One `getBlockRange` streaming response: the blocks delivered by `data`
events, then either an `end` event (`failure = false`) or an `error` event
(`failure = true`). -/
structure BlockStream where
  blocks : List CompactBlock
  failure : Bool
deriving DecidableEq, Repr

/-- The per-block body of `scanBlocks`'s `data` handler: for each
transaction, for each Sapling output, run trial decryption and emit a
`ShieldedTransaction` on a match. -/
def scanBlock (C : CryptoPrims) (ivk : List Nat) (block : CompactBlock) :
    List ShieldedTransaction :=
  (block.vtx.map (fun tx =>
    tx.outputs.filterMap (fun output =>
      (tryDecryptNote C ⟨output.cmu, output.epk, output.ciphertext⟩ ivk).map
        (fun decrypted =>
          { txid := tx.hash.reverse, blockHeight := block.height,
            timestamp := block.time * 1000,
            amountZatoshis := decrypted.value, memo := decrypted.memoText,
            processed := false })))).flatten

set_option linter.unusedVariables false in
/-- `scanBlocks(startHeight, endHeight)` from `src/unnamed/part_007`,
with the server's streaming response as an explicit input.  Without a
client or viewing key it resolves `[]` untouched; a `data`/`end` run
accumulates matches and then sets `lastScannedHeight = endHeight`; an
`error` event rejects the promise with the state untouched.  The source
contains no check that `startHeight ≤ endHeight`. -/
def scanBlocks (C : CryptoPrims) (st : ClientState)
    (startHeight endHeight : Int) (stream : BlockStream) :
    Except String (List ShieldedTransaction) × ClientState :=
  match st.hasClient, st.ivk with
  | true, some ivk =>
    if stream.failure then (Except.error "Error scanning blocks", st)
    else (Except.ok ((stream.blocks.map (scanBlock C ivk)).flatten),
      { st with lastScannedHeight := endHeight })
  | _, _ => (Except.ok [], st)

/-- C1: with a connected client and viewing key, a fully consumed stream
resolves the accumulated matches and sets `lastScannedHeight` to
`endHeight` (the single write of the call); a stream error rejects the
call and leaves the whole client state — in particular
`lastScannedHeight` — exactly as before, so the same range can be
retried. -/
theorem scanBlocks_progress_spec (C : CryptoPrims) (st : ClientState)
    (startHeight endHeight : Int) (stream : BlockStream) (ivk : List Nat)
    (hc : st.hasClient = true) (hi : st.ivk = some ivk) :
    (stream.failure = false →
      (scanBlocks C st startHeight endHeight stream).2
        = { st with lastScannedHeight := endHeight } ∧
      (scanBlocks C st startHeight endHeight stream).1
        = Except.ok ((stream.blocks.map (scanBlock C ivk)).flatten)) ∧
    (stream.failure = true →
      (scanBlocks C st startHeight endHeight stream).2 = st ∧
      ∃ e, (scanBlocks C st startHeight endHeight stream).1 = Except.error e) := by
  constructor
  · intro hf
    simp only [scanBlocks, hc, hi]
    rw [if_neg (by rw [hf]; exact Bool.false_ne_true)]
    exact ⟨rfl, rfl⟩
  · intro hf
    simp only [scanBlocks, hc, hi]
    rw [if_pos hf]
    exact ⟨rfl, _, rfl⟩

/-- C1 witness: the progress theorem at a concrete state and the two
concrete one-block streams (clean end, and mid-range error). -/
theorem scanBlocks_progress_spec_witness :
    ((⟨[], false⟩ : BlockStream).failure = false →
      (scanBlocks plainPrims ⟨true, some [], 7, true⟩ 10 20 ⟨[], false⟩).2
        = { (⟨true, some [], 7, true⟩ : ClientState) with lastScannedHeight := 20 } ∧
      (scanBlocks plainPrims ⟨true, some [], 7, true⟩ 10 20 ⟨[], false⟩).1
        = Except.ok ((([] : List CompactBlock).map (scanBlock plainPrims [])).flatten)) ∧
    ((⟨[], false⟩ : BlockStream).failure = true →
      (scanBlocks plainPrims ⟨true, some [], 7, true⟩ 10 20 ⟨[], false⟩).2
        = ⟨true, some [], 7, true⟩ ∧
      ∃ e, (scanBlocks plainPrims ⟨true, some [], 7, true⟩ 10 20 ⟨[], false⟩).1
        = Except.error e) :=
  scanBlocks_progress_spec plainPrims ⟨true, some [], 7, true⟩ 10 20 ⟨[], false⟩
    [] rfl rfl

/-- C7 (amended): `scanBlocks` contains no inverted-range check, so the
result of `scanBlocks(H, H-1)` is whatever the server streams back for the
inverted range: if the stream completes without delivering blocks the call
returns an empty list without error (and still overwrites
`lastScannedHeight` with `H - 1`), while a stream that does deliver blocks
is scanned like any other. -/
theorem scanBlocks_inverted (C : CryptoPrims) (st : ClientState) (H : Int)
    (stream : BlockStream) (ivk : List Nat)
    (hc : st.hasClient = true) (hi : st.ivk = some ivk)
    (hempty : stream.blocks = []) (hfail : stream.failure = false) :
    (scanBlocks C st H (H - 1) stream).1 = Except.ok [] ∧
    (scanBlocks C st H (H - 1) stream).2.lastScannedHeight = H - 1 := by
  simp only [scanBlocks, hc, hi]
  rw [if_neg (by rw [hfail]; exact Bool.false_ne_true), hempty]
  exact ⟨rfl, rfl⟩

/-- C7 witness: the amended theorem at a concrete inverted call
`scanBlocks(500001, 500000)` with an empty, cleanly-ending stream. -/
theorem scanBlocks_inverted_witness :
    (scanBlocks plainPrims ⟨true, some [], 0, true⟩ 500001 500000 ⟨[], false⟩).1
      = Except.ok [] ∧
    (scanBlocks plainPrims ⟨true, some [], 0, true⟩ 500001 500000
      ⟨[], false⟩).2.lastScannedHeight = 500000 := by
  have h := scanBlocks_inverted plainPrims ⟨true, some [], 0, true⟩ 500001
    ⟨[], false⟩ [] rfl rfl rfl rfl
  simpa using h

/-- A compact output that decrypts successfully under the identity stream
cipher: the ephemeral key encodes the point `(0, 1)` and the 52-byte
ciphertext leads with the note-version byte 0x01. -/
def matchingOutput : CompactOutput :=
  ⟨[], [1] ++ List.replicate 31 0, 1 :: List.replicate 51 0⟩

/-- A one-block stream for the inverted range that still delivers data. -/
def c7stream : BlockStream :=
  ⟨[⟨500000, 1700000000, [⟨[0xaa], [matchingOutput]⟩]⟩], false⟩

/-- C7 counterexample: the claim says an inverted call returns an empty
list, but the code opens the stream anyway; when the server streams a block
containing a matching output, `scanBlocks(500001, 500000)` returns a
non-empty list (and rewrites `lastScannedHeight` backwards to 500000). -/
theorem scanBlocks_inverted_cex :
    (scanBlocks plainPrims ⟨true, some (List.replicate 32 0), 500001, true⟩
      500001 500000 c7stream).1 = Except.ok [⟨[170], 500000, 1700000000000, 0,
        memoPlaceholder, false⟩] ∧
    (Except.ok [(⟨[170], 500000, 1700000000000, 0, memoPlaceholder, false⟩ :
      ShieldedTransaction)] : Except String (List ShieldedTransaction))
      ≠ Except.ok [] ∧
    (scanBlocks plainPrims ⟨true, some (List.replicate 32 0), 500001, true⟩
      500001 500000 c7stream).2.lastScannedHeight = 500000 := by
  refine ⟨?_, by simp, rfl⟩
  set_option maxRecDepth 20000 in rfl

/-! ## Watch loop and dedup store (`src/unnamed/part_005`) -/

/-- `ShieldedTransaction` from `src/types.ts` as parsed from the zingo
wallet's JSON notes (string txid); the floating-point `amountZec` is
outside the embedding. -/
structure ZingoTx where
  txid : String
  blockHeight : Int
  timestamp : Int
  amountZatoshis : Int
  memo : String
  processed : Bool
deriving DecidableEq, Repr

/-- The module-level mutable state of `src/unnamed/part_005`: the
`isWatching` flag, the poll closure's `consecutiveErrors` counter, the
`processedTxids` set (an insertion-ordered string set) and its on-disk
copy written by `saveProcessedTxids` (the source logs and keeps going if
the write fails; the successful write is modelled). -/
structure WatchState where
  isWatching : Bool
  consecutiveErrors : Nat
  processedTxids : List String
  persisted : List String
deriving DecidableEq, Repr

/-- `markProcessed(txid)` from `src/unnamed/part_005`: add to the set
(`Set.add` is a no-op on duplicates) and persist it immediately. -/
def markProcessed (st : WatchState) (txid : String) : WatchState :=
  let s := if st.processedTxids.contains txid then st.processedTxids
    else st.processedTxids ++ [txid]
  { st with processedTxids := s, persisted := s }

/-- The per-transaction body of the poll loop: skip already-processed ids;
otherwise deliver to the handler and mark processed only when it returns
without error (the inner catch swallows handler exceptions).  Also returns
the list of transactions delivered to the handler. -/
def processTx (handler : ZingoTx → Bool) (st : WatchState) (tx : ZingoTx) :
    WatchState × List ZingoTx :=
  if st.processedTxids.contains tx.txid then (st, [])
  else if handler tx then (markProcessed st tx.txid, [tx])
  else (st, [tx])

/-- The `for (const tx of transactions)` loop of one poll iteration. -/
def processTxs (handler : ZingoTx → Bool) :
    WatchState → List ZingoTx → WatchState × List ZingoTx
  | st, [] => (st, [])
  | st, tx :: rest =>
    let p1 := processTx handler st tx
    let p2 := processTxs handler p1.1 rest
    (p2.1, p1.2 ++ p2.2)

/-- One poll iteration of `watchForTransactions` (`src/unnamed/part_005`),
with the scan outcome (`scanForNewTransactions` resolving a transaction
list, or throwing) as an explicit input.  A successful scan resets
`consecutiveErrors`; a failed scan increments it and clears `isWatching`
at the threshold `MAX_CONSECUTIVE_ERRORS = 5`. -/
def pollOnce (handler : ZingoTx → Bool) (st : WatchState)
    (scan : Except Unit (List ZingoTx)) : WatchState × List ZingoTx :=
  match scan with
  | Except.error _ =>
    let c := st.consecutiveErrors + 1
    if c ≥ 5 then ({ st with consecutiveErrors := c, isWatching := false }, [])
    else ({ st with consecutiveErrors := c }, [])
  | Except.ok txs => processTxs handler { st with consecutiveErrors := 0 } txs

/-- The poll/`setTimeout` driver: executes one poll per scheduled timer
tick while `isWatching` holds (a poll that clears the flag schedules no
successor).  Returns the final state, the number of polls that ran, and
every transaction delivered to the handler. -/
def watchRun (handler : ZingoTx → Bool) :
    WatchState → List (Except Unit (List ZingoTx)) →
      WatchState × Nat × List ZingoTx
  | st, [] => (st, 0, [])
  | st, scan :: rest =>
    if st.isWatching then
      let p := pollOnce handler st scan
      let r := watchRun handler p.1 rest
      (r.1, r.2.1 + 1, p.2 ++ r.2.2)
    else (st, 0, [])

theorem processTxs_flags (handler : ZingoTx → Bool) :
    ∀ (txs : List ZingoTx) (st : WatchState),
      (processTxs handler st txs).1.consecutiveErrors = st.consecutiveErrors ∧
      (processTxs handler st txs).1.isWatching = st.isWatching := by
  intro txs
  induction txs with
  | nil => intro st; exact ⟨rfl, rfl⟩
  | cons tx rest ih =>
    intro st
    simp only [processTxs]
    have hstep : (processTx handler st tx).1.consecutiveErrors = st.consecutiveErrors ∧
        (processTx handler st tx).1.isWatching = st.isWatching := by
      unfold processTx markProcessed
      split
      · exact ⟨rfl, rfl⟩
      · split
        · exact ⟨rfl, rfl⟩
        · exact ⟨rfl, rfl⟩
    obtain ⟨h1, h2⟩ := ih (processTx handler st tx).1
    exact ⟨h1.trans hstep.1, h2.trans hstep.2⟩

theorem watchRun_replicate_error (handler : ZingoTx → Bool) :
    ∀ (n : Nat) (st : WatchState) (rest : List (Except Unit (List ZingoTx))),
      st.isWatching = true → st.consecutiveErrors + n = 5 → 1 ≤ n →
      (watchRun handler st (List.replicate n (Except.error ()) ++ rest)).2.1 = n ∧
      (watchRun handler st (List.replicate n (Except.error ()) ++ rest)).1.isWatching
        = false := by
  intro n
  induction n with
  | zero => intro st _ _ _ hn; omega
  | succ n ih =>
    intro st rest hw hc _
    rw [List.replicate_succ, List.cons_append, watchRun, if_pos hw]
    by_cases hlast : n = 0
    · subst hlast
      have hfire : st.consecutiveErrors + 1 ≥ 5 := by omega
      simp only [pollOnce, if_pos hfire]
      rw [List.replicate_zero, List.nil_append]
      cases rest with
      | nil => exact ⟨rfl, rfl⟩
      | cons r rs =>
        rw [watchRun]
        rw [if_neg (by simp)]
        exact ⟨rfl, rfl⟩
    · have hnofire : ¬ (st.consecutiveErrors + 1 ≥ 5) := by omega
      simp only [pollOnce, if_neg hnofire]
      have hrec := ih { st with consecutiveErrors := st.consecutiveErrors + 1 }
        rest (by simp [hw]) (by simp; omega) (by omega)
      refine ⟨?_, hrec.2⟩
      rw [hrec.1]

/-- C8 (amended): the watch loop counts consecutive *poll-level* failures —
`scanForNewTransactions` throwing — incrementing the counter per failed
iteration and resetting it to zero on a successful one; once it reaches
the threshold of 5 the running flag is cleared and no further poll runs.
A throwing *handler*, however, is caught by the inner per-transaction
catch: it does not increment the counter, so handler failures alone never
stop the loop. -/
theorem watch_circuit_breaker (handler : ZingoTx → Bool) (st : WatchState)
    (rest : List (Except Unit (List ZingoTx)))
    (hw : st.isWatching = true) (hc : st.consecutiveErrors = 0) :
    ((watchRun handler st (List.replicate 5 (Except.error ()) ++ rest)).2.1 = 5 ∧
      (watchRun handler st
        (List.replicate 5 (Except.error ()) ++ rest)).1.isWatching = false) ∧
    (∀ (st' : WatchState) (txs : List ZingoTx),
      (pollOnce handler st' (Except.ok txs)).1.consecutiveErrors = 0) ∧
    (∀ st' : WatchState, (pollOnce handler st' (Except.error ())).1.consecutiveErrors
      = st'.consecutiveErrors + 1) := by
  refine ⟨watchRun_replicate_error handler 5 st rest hw (by omega) (by omega), ?_, ?_⟩
  · intro st' txs
    simp only [pollOnce]
    exact (processTxs_flags handler txs _).1
  · intro st'
    simp only [pollOnce]
    by_cases h5 : st'.consecutiveErrors + 1 ≥ 5
    · rw [if_pos h5]
    · rw [if_neg h5]

/-- C8 witness: the circuit-breaker theorem at a concrete fresh state, an
always-failing handler, and one trailing scheduled poll beyond the five
failures. -/
theorem watch_circuit_breaker_witness :
    ((watchRun (fun _ => false) ⟨true, 0, [], []⟩
        (List.replicate 5 (Except.error ()) ++ [Except.ok []])).2.1 = 5 ∧
      (watchRun (fun _ => false) ⟨true, 0, [], []⟩
        (List.replicate 5 (Except.error ()) ++ [Except.ok []])).1.isWatching
        = false) ∧
    (∀ (st' : WatchState) (txs : List ZingoTx),
      (pollOnce (fun _ => false) st' (Except.ok txs)).1.consecutiveErrors = 0) ∧
    (∀ st' : WatchState,
      (pollOnce (fun _ => false) st' (Except.error ())).1.consecutiveErrors
        = st'.consecutiveErrors + 1) :=
  watch_circuit_breaker (fun _ => false) ⟨true, 0, [], []⟩ [Except.ok []] rfl rfl

/-- C8 counterexample: a handler that throws on five consecutive poll
iterations does *not* stop the loop — the exceptions are swallowed by the
inner per-transaction catch, `consecutiveErrors` stays 0, the running flag
stays set, and a sixth poll occurs. -/
theorem watch_handler_throws_cex :
    (watchRun (fun _ => false) ⟨true, 0, [], []⟩
      (List.replicate 6 (Except.ok [⟨"t1", 1, 0, 5, "m", false⟩]))).2.1 = 6 ∧
    (watchRun (fun _ => false) ⟨true, 0, [], []⟩
      (List.replicate 6 (Except.ok [⟨"t1", 1, 0, 5, "m", false⟩]))).1.isWatching
      = true := by decide

/-- C9: per delivered transaction — an id already in the processed set is
never delivered to the handler again; on handler success the id is added
to the set and the set is persisted immediately; on handler failure the id
is delivered but the state is unchanged, so a later poll carrying the same
transaction delivers it again (at-least-once); and marking the same id
twice is a no-op. -/
theorem delivery_marking_spec (handler : ZingoTx → Bool) (st : WatchState)
    (tx : ZingoTx) :
    (st.processedTxids.contains tx.txid = true →
      processTx handler st tx = (st, [])) ∧
    (st.processedTxids.contains tx.txid = false → handler tx = true →
      (processTx handler st tx).2 = [tx] ∧
      (processTx handler st tx).1.processedTxids.contains tx.txid = true ∧
      (processTx handler st tx).1.persisted
        = (processTx handler st tx).1.processedTxids) ∧
    (st.processedTxids.contains tx.txid = false → handler tx = false →
      (processTx handler st tx).2 = [tx] ∧ (processTx handler st tx).1 = st ∧
      (processTx handler (processTx handler st tx).1 tx).2 = [tx]) ∧
    (markProcessed (markProcessed st tx.txid) tx.txid
      = markProcessed st tx.txid) := by
  refine ⟨?_, ?_, ?_, ?_⟩
  · intro h
    unfold processTx
    rw [if_pos h]
  · intro h hh
    have hres : processTx handler st tx = (markProcessed st tx.txid, [tx]) := by
      unfold processTx
      rw [if_neg (by rw [h]; exact Bool.false_ne_true), if_pos hh]
    rw [hres]
    refine ⟨rfl, ?_, ?_⟩
    · unfold markProcessed
      rw [if_neg (by rw [h]; exact Bool.false_ne_true)]
      simp
    · unfold markProcessed
      rfl
  · intro h hh
    have hres : processTx handler st tx = (st, [tx]) := by
      unfold processTx
      rw [if_neg (by rw [h]; exact Bool.false_ne_true),
        if_neg (by rw [hh]; exact Bool.false_ne_true)]
    rw [hres]
    refine ⟨rfl, rfl, ?_⟩
    show (processTx handler st tx).2 = [tx]
    rw [hres]
  · by_cases hmem : tx.txid ∈ st.processedTxids
    · have hin : st.processedTxids.contains tx.txid = true := by simpa using hmem
      simp only [markProcessed, hin, if_true]
    · have hin : ¬ (st.processedTxids.contains tx.txid = true) := by simpa using hmem
      have hcont : (st.processedTxids ++ [tx.txid]).contains tx.txid = true := by
        simp
      simp only [markProcessed, hin, if_false, hcont, if_true]
      simp [hcont]

/-- C9 witness: the delivery theorem at a concrete store state and
transaction. -/
theorem delivery_marking_spec_witness :
    let st : WatchState := ⟨true, 0, ["old"], ["old"]⟩
    let tx : ZingoTx := ⟨"t1", 1, 0, 5, "m", false⟩
    (processTx (fun _ => true) st tx).2 = [tx] ∧
    (processTx (fun _ => true) st tx).1.processedTxids.contains tx.txid = true ∧
    (processTx (fun _ => true) st tx).1.persisted
      = (processTx (fun _ => true) st tx).1.processedTxids ∧
    processTx (fun _ => true) (markProcessed st tx.txid) tx
      = (markProcessed st tx.txid, []) ∧
    markProcessed (markProcessed st tx.txid) tx.txid = markProcessed st tx.txid := by
  intro st tx
  have h1 := (delivery_marking_spec (fun _ => true) st tx).2.1 (by decide) rfl
  have h2 := (delivery_marking_spec (fun _ => true) (markProcessed st tx.txid) tx).1
    (by decide)
  have h3 := (delivery_marking_spec (fun _ => true) st tx).2.2.2
  exact ⟨h1.1, h1.2.1, h1.2.2, h2, h3⟩

/-! ## Viewing-key parsing and the client constructor
(`parseIncomingViewingKey` in `src/crypto/sapling.ts`, `ZcashLightClient`
constructor in `src/unnamed/part_007`) -/

/-- Value of one hex digit, or `none` for a non-hex character. -/
def hexVal (c : Char) : Option Nat :=
  if '0' ≤ c ∧ c ≤ '9' then some (c.toNat - 48)
  else if 'a' ≤ c ∧ c ≤ 'f' then some (c.toNat - 87)
  else if 'A' ≤ c ∧ c ≤ 'F' then some (c.toNat - 55)
  else none

/-- `Buffer.from(str, "hex")`: decode complete hex-digit pairs, stopping at
the first invalid character or dangling digit (node truncates there). -/
def hexDecode : List Char → List Nat
  | c1 :: c2 :: rest =>
    match hexVal c1, hexVal c2 with
    | some hi, some lo => (16 * hi + lo) :: hexDecode rest
    | _, _ => []
  | _ => []

/-- `parseIncomingViewingKey(ivkHex)` from `src/crypto/sapling.ts`: throws
(`Except.error`) unless the decoded buffer is exactly 32 bytes, and wraps
the decoded bytes otherwise. -/
def parseIncomingViewingKey (ivkHex : String) : Except String (List Nat) :=
  let ivk := hexDecode ivkHex.data
  if ivk.length ≠ 32 then
    Except.error "Invalid IVK length: expected 32 bytes"
  else Except.ok ivk

/-- `ZcashConfig` from `src/types.ts` (the optional string fields as
options). -/
structure ZcashConfig where
  lightwalletdUrl : String
  network : String
  viewingKey : Option String
  spendingKey : Option String
  pollInterval : Int
deriving DecidableEq, Repr

/-- The `ZcashLightClient` constructor (`src/unnamed/part_007`): fields
start as `client = null`, `ivk = null`, `lastScannedHeight = 0`,
`isConnected = false`; `if (config.viewingKey)` is JS truthiness, so an
absent *or empty-string* viewing key skips parsing, and otherwise a parse
failure propagates as a thrown error. -/
def mkZcashLightClient (config : ZcashConfig) : Except String ClientState :=
  match config.viewingKey with
  | some vk =>
    if vk ≠ "" then
      match parseIncomingViewingKey vk with
      | Except.error e => Except.error e
      | Except.ok ivk =>
        Except.ok { hasClient := false, ivk := some ivk,
                    lastScannedHeight := 0, isConnected := false }
    else
      Except.ok { hasClient := false, ivk := none,
                  lastScannedHeight := 0, isConnected := false }
  | none =>
    Except.ok { hasClient := false, ivk := none,
                lastScannedHeight := 0, isConnected := false }

/-- C10 (amended): `parseIncomingViewingKey` throws exactly when the
hex-decoded input is not 32 bytes and returns the decoded key unchanged
otherwise; constructing a `ZcashLightClient` with a *nonempty* such
viewing key therefore throws, while an empty-string (or absent) viewing
key is treated as unset by the constructor's truthiness check and does not
throw. -/
theorem parseIncomingViewingKey_spec (s : String) :
    ((hexDecode s.data).length ≠ 32 →
      ∃ e, parseIncomingViewingKey s = Except.error e) ∧
    ((hexDecode s.data).length = 32 →
      parseIncomingViewingKey s = Except.ok (hexDecode s.data)) ∧
    (∀ cfg : ZcashConfig, cfg.viewingKey = some s → s ≠ "" →
      (hexDecode s.data).length ≠ 32 →
      ∃ e, mkZcashLightClient cfg = Except.error e) ∧
    (∀ cfg : ZcashConfig, cfg.viewingKey = some "" →
      mkZcashLightClient cfg = Except.ok
        { hasClient := false, ivk := none, lastScannedHeight := 0,
          isConnected := false }) := by
  refine ⟨?_, ?_, ?_, ?_⟩
  · intro h
    refine ⟨"Invalid IVK length: expected 32 bytes", ?_⟩
    unfold parseIncomingViewingKey
    rw [if_pos h]
  · intro h
    unfold parseIncomingViewingKey
    rw [if_neg (by omega)]
  · intro cfg hvk hne h
    unfold mkZcashLightClient
    rw [hvk]
    dsimp only
    rw [if_pos hne]
    have hp : parseIncomingViewingKey s
        = Except.error "Invalid IVK length: expected 32 bytes" := by
      unfold parseIncomingViewingKey
      rw [if_pos h]
    rw [hp]
    exact ⟨_, rfl⟩
  · intro cfg hvk
    unfold mkZcashLightClient
    rw [hvk]
    dsimp only
    rw [if_neg (by simp)]

/-- C10 witness: the theorem applied at the 6-character hex string
"aabbcc", which decodes to 3 bytes. -/
theorem parseIncomingViewingKey_spec_witness :
    (∃ e, parseIncomingViewingKey "aabbcc" = Except.error e) ∧
    (∃ e, mkZcashLightClient ⟨"url", "mainnet", some "aabbcc", none, 30000⟩
      = Except.error e) := by
  constructor
  · exact (parseIncomingViewingKey_spec "aabbcc").1 (by decide)
  · exact (parseIncomingViewingKey_spec "aabbcc").2.2.1
      ⟨"url", "mainnet", some "aabbcc", none, 30000⟩ rfl (by decide) (by decide)

/-- C10 counterexample: the empty string is a hex string whose decoding has
length 0 ≠ 32 — `parseIncomingViewingKey` itself throws on it — yet
constructing a client with `viewingKey = ""` does *not* throw: the
constructor's JS truthiness check treats `""` as unset. -/
theorem mkClient_empty_key_cex :
    (hexDecode ("" : String).data).length ≠ 32 ∧
    (∃ e, parseIncomingViewingKey "" = Except.error e) ∧
    mkZcashLightClient ⟨"url", "mainnet", some "", none, 30000⟩
      = Except.ok { hasClient := false, ivk := none, lastScannedHeight := 0,
                    isConnected := false } := by
  refine ⟨by decide, ⟨"Invalid IVK length: expected 32 bytes", ?_⟩, ?_⟩
  · rfl
  · rfl

end Zeek
